import Mathlib

/-!
# args-reflect: command-line tokenizer, converters, binder and dispatcher

A shallow embedding of `src/args-reflect/include/argparse.h` and of the sample
handlers of `src/args-reflect/src/main.cpp`.

* C strings and `std::string_view`s are lists of characters (`Str`).
* `std::unordered_map<std::string_view, std::string_view>` is an association
  list (`MapT`) that is only read through `find` and only written through
  `emplace`, the two operations the source uses.
* `int` is a 32-bit two's complement integer, held in `Int` with the range
  made explicit (`INT_MIN`, `INT_MAX`).
* The handler signatures that the source obtains by reflection
  (`std::meta::parameters_of`, `identifier_of`, `type_of`) are explicit data:
  a `ParameterSpec` per parameter and a `CommandSpec` per registered function.
* Side effects of handlers are explicit state passing over a state type `σ`.
-/

namespace argparse

/-! ## Strings and the parameter map -/

/-- A C string or `std::string_view`: its characters, terminator excluded. -/
abbrev Str := List Char

/-- The alias `MapT` of `parse_cmd`: `std::unordered_map<string_view, string_view>`,
as the list of its entries. -/
abbrev MapT := List (Str × Str)

/-- The member `std::unordered_map::find`: the value stored under key `k`, if any. -/
def MapT.find : MapT → Str → Option Str
  | [], _ => none
  | (k', v) :: m, k => if k' = k then some v else MapT.find m k

/-- The member `std::unordered_map::emplace`: inserts the entry only when the key has no
entry yet; an existing entry is left as it is. -/
def MapT.emplace (m : MapT) (k v : Str) : MapT :=
  match MapT.find m k with
  | some _ => m
  | none => m ++ [(k, v)]

/-- The two-character option marker, the literal `"--"` of the source. -/
def marker : Str := ['-', '-']

/-- The test `std::strncmp(arg, "--", 2) == 0`: the first two characters of
`arg` exist and are both `-`. -/
def has_marker (arg : Str) : Bool := decide (arg.take 2 = marker)

/-- The call `std::strchr(s, c)` for a character `c` other than the terminator: the
offset of the first occurrence of `c` in `s`, or `none` for a null pointer. -/
def strchr : Str → Char → Option Nat
  | [], _ => none
  | a :: s, c => if a = c then some 0 else (strchr s c).map (· + 1)

/-! ## parse_cmd -/

/-- The body of the `for` loop of `parse_cmd`, as a recursion on the tokens
`argv[i], argv[i+1], ...` that are still to be scanned, with the map built so
far. Each recursive call is the next iteration: on the tail after `++i`, and
on the tail of the tail when the value token was consumed by the extra `++i`. -/
def parse_loop : List Str → MapT → MapT
  | [], params => params
  | arg :: rest, params =>
    if has_marker arg = false then
      -- skip unexpected token
      parse_loop rest params
    else
      let name_start := arg.drop 2
      match strchr name_start '=' with
      | some eq =>
        parse_loop rest (params.emplace (name_start.take eq) (name_start.drop (eq + 1)))
      | none =>
        match rest with
        | next :: rest' =>
          if has_marker next = false then
            -- consume value
            parse_loop rest' (params.emplace name_start next)
          else
            parse_loop (next :: rest') params
        | [] => params

/-- The function `parse_cmd(argc, argv)`, with `argc = argv.length`:
`argv[0]` is the program name, `argv[1]` the command, the rest is scanned. -/
def parse_cmd (argv : List Str) : Str × MapT :=
  match argv with
  | _ :: command :: rest => (command, parse_loop rest [])
  | _ => ([], [])

/-! ## convert_string -/

/-- The error codes `std::errc` that `std::from_chars` can report; `ok` is the
value-initialised `std::errc()`. -/
inductive errc where
  | ok
  | invalid_argument
  | result_out_of_range
  deriving DecidableEq

/-- Smallest value of `int`. -/
def INT_MIN : Int := -2147483648

/-- Largest value of `int`. -/
def INT_MAX : Int := 2147483647

/-- The number a run of decimal digits denotes. -/
def digits_value (ds : Str) : Nat :=
  ds.foldl (fun acc c => 10 * acc + (c.toNat - '0'.toNat)) 0

/-- What `std::from_chars(first, last, value)` reports for `int` in base 10:
`ptr` as an offset from `first`, the error code, and the value stored in
`value` (`none` when `value` is left unmodified). -/
structure from_chars_result where
  ptr : Nat
  ec : errc
  value : Option Int
  deriving DecidableEq

/-- The standard library function `std::from_chars` for `int`, base 10, after
the C++ standard: the pattern is an optional minus sign (no plus sign, no
leading whitespace) followed by a non-empty run of decimal digits; the longest
such prefix is taken. Without a match the error is `invalid_argument`; with a
match whose value does not fit `int` it is `result_out_of_range`; otherwise
the value is stored. -/
def from_chars (s : Str) : from_chars_result :=
  let neg : Bool := decide (s.head? = some '-')
  let body := if neg then s.drop 1 else s
  let ds := body.takeWhile Char.isDigit
  if ds = [] then
    { ptr := 0, ec := errc.invalid_argument, value := none }
  else
    let v : Int := if neg then -(digits_value ds : Int) else (digits_value ds : Int)
    let ptr := (if neg then 1 else 0) + ds.length
    if INT_MIN ≤ v ∧ v ≤ INT_MAX then
      { ptr := ptr, ec := errc.ok, value := some v }
    else
      { ptr := ptr, ec := errc.result_out_of_range, value := none }

/-- The specialisation `convert_string<int>`: the result of `from_chars` is
returned whenever the error code is `std::errc()`; `ptr` is not looked at. -/
def convert_string_int (s : Str) : Option Int :=
  let r := from_chars s
  if r.ec = errc.ok then r.value else none

/-- The specialisation `convert_string<std::string_view>`. -/
def convert_string_string_view (s : Str) : Option Str := some s

/-- The specialisation `convert_string<bool>`. -/
def convert_string_bool (s : Str) : Option Bool :=
  if s = "true".toList ∨ s = "1".toList then some true
  else if s = "false".toList ∨ s = "0".toList then some false
  else none

/-- The parameter types for which `convert_string` is specialised. -/
inductive TypeTag where
  | int
  | string_view
  | bool
  deriving DecidableEq

/-- A value of one of the supported parameter types. -/
inductive Value where
  | int (i : Int)
  | string_view (s : Str)
  | bool (b : Bool)
  deriving DecidableEq

/-- The template `convert_string<T>`, selected by the type. -/
def convert_string (t : TypeTag) (s : Str) : Option Value :=
  match t with
  | TypeTag.int => (convert_string_int s).map Value.int
  | TypeTag.string_view => (convert_string_string_view s).map Value.string_view
  | TypeTag.bool => (convert_string_bool s).map Value.bool

/-- The value-initialised `T{}` that stands in for a parameter that could not
be bound. -/
def default_value (t : TypeTag) : Value :=
  match t with
  | TypeTag.int => Value.int 0
  | TypeTag.string_view => Value.string_view []
  | TypeTag.bool => Value.bool false

/-! ## get_parameters_values -/

/-- One function parameter as reflection presents it: `identifier_of(param)`
and `type_of(param)`. -/
structure ParameterSpec where
  name : Str
  type : TypeTag
  deriving DecidableEq

/-- The lambda body of `get_parameters_values` for one parameter: the element
of the tuple, and whether `all_params_parsed` survives this parameter. -/
def bind_param (parameters : MapT) (param : ParameterSpec) : Value × Bool :=
  match parameters.find param.name with
  | some raw_value =>
    match convert_string param.type raw_value with
    | some value => (value, true)
    | none => (default_value param.type, false)
  | none => (default_value param.type, false)

/-- The tuple `values` and the flag `all_params_parsed` after the lambda has
run for every parameter of the pack, the flag starting from `flag`. -/
def bind_all (parameters : MapT) : List ParameterSpec → Bool → List Value × Bool
  | [], flag => ([], flag)
  | param :: ps, flag =>
    let r := bind_param parameters param
    let rs := bind_all parameters ps (flag && r.2)
    (r.1 :: rs.1, rs.2)

/-- The function template `get_parameters_values<Function>`, with the
parameters of `Function` given as `ps`. -/
def get_parameters_values (ps : List ParameterSpec) (parameters : MapT) :
    Option (List Value) :=
  let r := bind_all parameters ps true
  if r.2 then some r.1 else none

/-! ## run -/

/-- A registered function as `run` sees it: its identifier, its parameters and
the call `std::apply(f, values)`, which returns the exit code and may change
the state of the world (console output). -/
structure CommandSpec (σ : Type) where
  name : Str
  parameters : List ParameterSpec
  invoke : List Value → σ → Int × σ

/-- The function template `run<Functions...>(command, params)`: the
`template for` over the registered functions in order. -/
def run {σ : Type} : List (CommandSpec σ) → Str → MapT → σ → Int × σ
  | [], _, _, w => (1, w)
  | f :: fs, command, params, w =>
    if f.name = command then
      match get_parameters_values f.parameters params with
      | some values => f.invoke values w
      | none => run fs command params w
    else run fs command params w

/-- The overload `run<Functions...>(argc, argv)`. -/
def run_main {σ : Type} (fs : List (CommandSpec σ)) (argv : List Str) (w : σ) : Int × σ :=
  let arguments := parse_cmd argv
  run fs arguments.1 arguments.2 w

/-! ## The sample program of main.cpp -/

/-- The text `std::format("{}", i)` produces for an `int`. -/
def format_int (i : Int) : Str :=
  if i < 0 then '-' :: Nat.toDigits 10 i.natAbs else Nat.toDigits 10 i.toNat

/-- An arithmetic result brought back into the range of `int` (two's
complement wrap-around, what the usual targets give on signed overflow). -/
def wrap_int (i : Int) : Int := (i + 2147483648) % 4294967296 - 2147483648

/-- The handler `sum` of main.cpp; the state is the text written to `std::cout`. -/
def sum (x y : Int) (cout : Str) : Int × Str :=
  let result := wrap_int (x + y)
  (0, cout ++ format_int x ++ ['+'] ++ format_int y ++ ['='] ++ format_int result)

/-- The handler `sqr` of main.cpp. -/
def sqr (v : Int) (cout : Str) : Int × Str :=
  let result := wrap_int (v * v)
  (0, cout ++ format_int v ++ "^2=".toList ++ format_int result)

/-- The handler `cat` of main.cpp. -/
def cat (pre root suffix : Str) (cout : Str) : Int × Str :=
  let result := pre ++ root ++ suffix
  (0, cout ++ ['"'] ++ pre ++ "\"+\"".toList ++ root ++ "\"+\"".toList ++ suffix
        ++ "\"=\"".toList ++ result ++ ['"'])

/-- The registered function `sum` as reflection presents it: `int sum(int x, int y)`.
The tuple built by `get_parameters_values` always has the declared shape, so
the last case of `invoke` is never reached from `run`. -/
def sum_spec : CommandSpec Str where
  name := "sum".toList
  parameters := [⟨"x".toList, TypeTag.int⟩, ⟨"y".toList, TypeTag.int⟩]
  invoke := fun values cout =>
    match values with
    | [Value.int x, Value.int y] => sum x y cout
    | _ => (0, cout)

/-- The registered function `sqr`: `int sqr(int v)`. -/
def sqr_spec : CommandSpec Str where
  name := "sqr".toList
  parameters := [⟨"v".toList, TypeTag.int⟩]
  invoke := fun values cout =>
    match values with
    | [Value.int v] => sqr v cout
    | _ => (0, cout)

/-- The registered function `cat`:
`int cat(std::string_view prefix, std::string_view root, std::string_view suffix)`. -/
def cat_spec : CommandSpec Str where
  name := "cat".toList
  parameters := [⟨"prefix".toList, TypeTag.string_view⟩, ⟨"root".toList, TypeTag.string_view⟩,
    ⟨"suffix".toList, TypeTag.string_view⟩]
  invoke := fun values cout =>
    match values with
    | [Value.string_view a, Value.string_view b, Value.string_view c] => cat a b c cout
    | _ => (0, cout)

/-- The function `main` of main.cpp: `argparse::run<sum, sqr, cat>(argc, argv)`. -/
def main (argv : List Str) (cout : Str) : Int × Str :=
  run_main [sum_spec, sqr_spec, cat_spec] argv cout

/-! ## Vocabulary of the specification -/

/-- An option token `t`, followed by `next` (`none` at the end of the argument
vector), gives the name `n` the value `v`: either `t` is `--n=v`, split at its
first `=`, or `t` is `--n` without any `=` and the following token is `v`,
which does not begin with the marker. -/
def Supplies (t : Str) (next : Option Str) (n v : Str) : Prop :=
  (t = marker ++ n ++ '=' :: v ∧ '=' ∉ n) ∨
  (t = marker ++ n ∧ '=' ∉ n ∧ next = some v ∧ has_marker v = false)

instance (t : Str) (next : Option Str) (n v : Str) : Decidable (Supplies t next n v) := by
  unfold Supplies; infer_instance

/-- The token at position `i` of `argv` gives the name `n` the value `v`. -/
def SuppliesAt (argv : List Str) (i : Nat) (n v : Str) : Prop :=
  ∃ t, argv[i]? = some t ∧ Supplies t argv[i + 1]? n v

/-- The name and the value an option token supplies, read off the token and
its successor; `none` when the token supplies nothing. -/
def option_value (arg : Str) (next : Option Str) : Option (Str × Str) :=
  if has_marker arg = false then none
  else
    match strchr (arg.drop 2) '=' with
    | some eq => some ((arg.drop 2).take eq, (arg.drop 2).drop (eq + 1))
    | none =>
      match next with
      | some v => if has_marker v = false then some (arg.drop 2, v) else none
      | none => none

/-- The names and values supplied along a token list, position by position,
from left to right. -/
def option_values : List Str → List (Str × Str)
  | [] => []
  | arg :: rest => (option_value arg rest.head?).toList ++ option_values rest

/-- One parameter as it is written on the command line: its name, its raw
value, and whether it is written as the single token `--name=value`
(`eq_form = true`) or as the two tokens `--name`, `value`. -/
structure Supplied where
  name : Str
  value : Str
  eq_form : Bool
  deriving DecidableEq

/-- The tokens that write one parameter. -/
def Supplied.tokens (a : Supplied) : List Str :=
  if a.eq_form then [marker ++ a.name ++ '=' :: a.value]
  else [marker ++ a.name, a.value]

/-- The tokens that write a list of parameters, in order. -/
def render : List Supplied → List Str
  | [] => []
  | a :: l => a.tokens ++ render l

/-! ## Concrete inputs used to exercise the theorems -/

/-- The pairs `a = 1`, `b = x=y`, written `--a 1 --b=x=y`. -/
def forms_input₁ : List Supplied :=
  [⟨"a".toList, "1".toList, false⟩, ⟨"b".toList, "x=y".toList, true⟩]

/-- The same pairs, written `--a=1 --b x=y`. -/
def forms_input₂ : List Supplied :=
  [⟨"a".toList, "1".toList, true⟩, ⟨"b".toList, "x=y".toList, false⟩]

/-- The parameters of `cat`, written out of order and in both forms:
`--suffix=c --prefix a --root=b`. -/
def cat_input : List Supplied :=
  [⟨"suffix".toList, "c".toList, true⟩, ⟨"prefix".toList, "a".toList, false⟩,
    ⟨"root".toList, "b".toList, true⟩]

/-- The argument vector `prog sum --x 3 --y 4`. -/
def sum_argv : List Str :=
  ["prog".toList, "sum".toList, "--x".toList, "3".toList, "--y".toList, "4".toList]

/-- The argument vector `prog sum --x abc --y 4`. -/
def sum_bad_argv : List Str :=
  ["prog".toList, "sum".toList, "--x".toList, "abc".toList, "--y".toList, "4".toList]

/-- The argument vector `prog unknown --x 1`. -/
def unknown_argv : List Str :=
  ["prog".toList, "unknown".toList, "--x".toList, "1".toList]

/-- A function `int f(int x)`, as `first::f` of some namespace `first`; it
writes `first` and returns 7. -/
def first_f : CommandSpec Str where
  name := "f".toList
  parameters := [⟨"x".toList, TypeTag.int⟩]
  invoke := fun _ cout => (7, cout ++ "first".toList)

/-- A function `int f(int y)` with the same identifier, as `second::f` of
another namespace; it writes `second` and returns 5. -/
def second_f : CommandSpec Str where
  name := "f".toList
  parameters := [⟨"y".toList, TypeTag.int⟩]
  invoke := fun _ cout => (5, cout ++ "second".toList)

/-! ## Vocabulary for the integer converter -/

/-- The part of a text in which the digits are looked for: the text itself,
or what follows its leading minus sign. -/
def digit_part (p : Str) : Str :=
  if p.head? = some '-' then p.drop 1 else p

/-- The text `p` is an optional leading `-` followed by one or more decimal
digits and nothing else. -/
def int_form (p : Str) : Bool :=
  !(digit_part p).isEmpty && (digit_part p).all Char.isDigit

/-- The integer a text of that form denotes in base 10. -/
def int_value (p : Str) : Int :=
  if p.head? = some '-' then -(digits_value (digit_part p) : Int)
  else (digits_value (digit_part p) : Int)

/-- The text `p` is the longest beginning of `s` that has the form of an
integer: it has the form, `s` starts with it, and no beginning of `s` of that
form is longer. -/
def LongestIntForm (s p : Str) : Prop :=
  int_form p = true ∧ (∃ t, s = p ++ t) ∧
    ∀ q, int_form q = true → (∃ t, s = q ++ t) → q.length ≤ p.length

/-- The beginning of `s` that `from_chars` reads as a number: the leading
minus sign, if there is one, and the run of digits after it. -/
def int_head (s : Str) : Str :=
  (if s.head? = some '-' then ['-'] else []) ++ (digit_part s).takeWhile Char.isDigit

/-- The parameters of `sum` together with two names no registered function
declares: `--z 9 --y=4 --x 3 --verbose=1`. -/
def sum_input_with_unknown : List Supplied :=
  [⟨"z".toList, "9".toList, false⟩, ⟨"y".toList, "4".toList, true⟩,
    ⟨"x".toList, "3".toList, false⟩, ⟨"verbose".toList, "1".toList, true⟩]

/-- The names that no function of main.cpp declares, among those used above. -/
def unknown_name (n : Str) : Bool :=
  decide (n = "z".toList) || decide (n = "verbose".toList)

/-- The argument vector `prog cmd --a 1 --b=x=y`. -/
def keys_argv : List Str :=
  ["prog".toList, "cmd".toList, "--a".toList, "1".toList, "--b=x=y".toList]

end argparse

namespace argparse

/-! ## The parameter map -/

theorem MapT.find_append (m₁ m₂ : MapT) (k : Str) :
    MapT.find (m₁ ++ m₂) k = (MapT.find m₁ k).or (MapT.find m₂ k) := by
  induction m₁ with
  | nil => simp [MapT.find]
  | cons e m ih =>
    obtain ⟨k', v⟩ := e
    by_cases h : k' = k
    · simp [MapT.find, h]
    · simp [MapT.find, h, ih]

theorem MapT.find_emplace (m : MapT) (k v k' : Str) :
    MapT.find (m.emplace k v) k' = (MapT.find m k').or (if k = k' then some v else none) := by
  unfold MapT.emplace
  cases hk : MapT.find m k with
  | some x =>
    by_cases h : k = k'
    · subst h; simp [hk]
    · simp [h]
  | none =>
    simp only [MapT.find_append]
    by_cases h : k = k'
    · simp [MapT.find, h]
    · simp [MapT.find, h]

theorem MapT.find_foldl_emplace (l : List (Str × Str)) (m : MapT) (k : Str) :
    MapT.find (l.foldl (fun m p => m.emplace p.1 p.2) m) k
      = (MapT.find m k).or (MapT.find l k) := by
  induction l generalizing m with
  | nil => simp [MapT.find]
  | cons e l ih =>
    obtain ⟨k', v⟩ := e
    simp only [List.foldl_cons, ih, MapT.find_emplace, MapT.find]
    cases MapT.find m k <;> by_cases h : k' = k <;> simp [h]

theorem MapT.mem_of_find {m : MapT} {k v : Str} (h : MapT.find m k = some v) :
    (k, v) ∈ m := by
  induction m with
  | nil => simp [MapT.find] at h
  | cons e m ih =>
    obtain ⟨k', v'⟩ := e
    by_cases hk : k' = k
    · simp [MapT.find, hk] at h
      simp [hk, h]
    · simp [MapT.find, hk] at h
      exact List.mem_cons_of_mem _ (ih h)

theorem MapT.find_isSome_of_mem {m : MapT} {k v : Str} (h : (k, v) ∈ m) :
    ∃ v', MapT.find m k = some v' := by
  induction m with
  | nil => simp at h
  | cons e m ih =>
    obtain ⟨k', v'⟩ := e
    by_cases hk : k' = k
    · exact ⟨v', by simp [MapT.find, hk]⟩
    · have : (k, v) ∈ m := by
        rcases List.mem_cons.1 h with h | h
        · exact absurd (congrArg Prod.fst h).symm hk
        · exact h
      simpa [MapT.find, hk] using ih this

/-! ## Markers and separators -/

theorem has_marker_iff (t : Str) : has_marker t = true ↔ ∃ s, t = marker ++ s := by
  unfold has_marker marker
  constructor
  · intro h
    refine ⟨t.drop 2, ?_⟩
    have h' : t.take 2 = ['-', '-'] := by simpa using h
    calc t = t.take 2 ++ t.drop 2 := (List.take_append_drop 2 t).symm
      _ = ['-', '-'] ++ t.drop 2 := by rw [h']
  · rintro ⟨s, rfl⟩
    simp

theorem has_marker_append (s : Str) : has_marker (marker ++ s) = true :=
  (has_marker_iff _).2 ⟨s, rfl⟩

theorem drop_marker (s : Str) : (marker ++ s).drop 2 = s := by
  simp [marker]

theorem strchr_eq_none {s : Str} {c : Char} : strchr s c = none ↔ c ∉ s := by
  induction s with
  | nil => simp [strchr]
  | cons a s ih =>
    by_cases h : a = c
    · simp [strchr, h]
    · have h' : ¬ c = a := fun e => h e.symm
      simp [strchr, h, h', ih]

theorem strchr_eq_some {s : Str} {c : Char} {k : Nat} (h : strchr s c = some k) :
    s = s.take k ++ c :: s.drop (k + 1) ∧ c ∉ s.take k := by
  induction s generalizing k with
  | nil => simp [strchr] at h
  | cons a s ih =>
    by_cases hac : a = c
    · simp [strchr, hac] at h
      subst h
      simp [hac]
    · simp only [strchr, hac, if_false, Option.map_eq_some'] at h
      obtain ⟨j, hj, rfl⟩ := h
      obtain ⟨h1, h2⟩ := ih hj
      have hca : ¬ c = a := fun e => hac e.symm
      refine ⟨?_, ?_⟩
      · simp only [List.take_succ_cons, List.drop_succ_cons, List.cons_append]
        exact congrArg _ h1
      · simp [List.take_succ_cons, hca, h2]

theorem strchr_append_cons {n v : Str} {c : Char} (h : c ∉ n) :
    strchr (n ++ c :: v) c = some n.length := by
  induction n with
  | nil => simp [strchr]
  | cons a n ih =>
    have ha : ¬ a = c := fun e => h (by simp [e])
    have hn : c ∉ n := fun e => h (List.mem_cons_of_mem _ e)
    simp [strchr, ha, ih hn]

/-! ## What one option token supplies -/

theorem option_value_eq_some_iff (t : Str) (next : Option Str) (n v : Str) :
    option_value t next = some (n, v) ↔ Supplies t next n v := by
  unfold option_value Supplies
  constructor
  · intro h
    by_cases hm : has_marker t = false
    · simp [hm] at h
    · have hm' : has_marker t = true := by simpa using hm
      obtain ⟨s, rfl⟩ := (has_marker_iff t).1 hm'
      simp only [hm', drop_marker] at h
      cases hs : strchr s '=' with
      | some k =>
        simp only [hs, Bool.true_eq_false, if_false, Option.some.injEq, Prod.mk.injEq] at h
        obtain ⟨h1, h2⟩ := strchr_eq_some hs
        left
        refine ⟨?_, ?_⟩
        · rw [← h.1, ← h.2, List.append_assoc, ← h1]
        · rw [← h.1]; exact h2
      | none =>
        simp only [hs, Bool.true_eq_false, if_false] at h
        right
        cases next with
        | none => simp at h
        | some w =>
          by_cases hw : has_marker w = false
          · simp only [hw, if_true, Option.some.injEq, Prod.mk.injEq] at h
            refine ⟨by rw [h.1], ?_, by rw [h.2], by rw [← h.2]; exact hw⟩
            rw [← h.1]; exact strchr_eq_none.1 hs
          · simp [hw] at h
  · rintro (⟨rfl, hn⟩ | ⟨rfl, hn, rfl, hv⟩)
    · simp only [List.append_assoc, has_marker_append, drop_marker, strchr_append_cons hn,
        Bool.true_eq_false, if_false]
      simp
    · simp [has_marker_append, drop_marker, strchr_eq_none.2 hn, hv]

theorem option_value_of_not_marker {t : Str} (h : has_marker t = false) (next : Option Str) :
    option_value t next = none := by
  simp [option_value, h]

/-! ## The scan of parse_cmd, token by token -/

theorem option_values_cons (arg : Str) (rest : List Str) :
    option_values (arg :: rest) = (option_value arg rest.head?).toList ++ option_values rest :=
  rfl

theorem parse_loop_eq_foldl (toks : List Str) (m : MapT) :
    parse_loop toks m = (option_values toks).foldl (fun m p => m.emplace p.1 p.2) m := by
  induction toks, m using parse_loop.induct with
  | case1 params => rw [parse_loop]; rfl
  | case2 arg rest params h ih =>
    rw [parse_loop, if_pos h, ih, option_values_cons, option_value_of_not_marker h]
    rfl
  | case3 arg rest params h name_start eq heq ih =>
    have heq' : strchr (arg.drop 2) '=' = some eq := heq
    have hv : option_value arg rest.head?
        = some ((arg.drop 2).take eq, (arg.drop 2).drop (eq + 1)) := by
      simp [option_value, h, heq']
    rw [parse_loop, if_neg h, option_values_cons, hv]
    simp only [heq']
    exact ih
  | case4 arg params h name_start hnone next rest hnext ih =>
    have hnone' : strchr (arg.drop 2) '=' = none := hnone
    have hv : option_value arg (next :: rest).head? = some (arg.drop 2, next) := by
      simp [option_value, h, hnone', hnext]
    rw [parse_loop, if_neg h, option_values_cons, hv, option_values_cons,
      option_value_of_not_marker hnext]
    simp only [hnone', hnext, if_true]
    exact ih
  | case5 arg params h name_start hnone next rest hnext ih =>
    have hnone' : strchr (arg.drop 2) '=' = none := hnone
    have hv : option_value arg (next :: rest).head? = none := by
      simp [option_value, h, hnone', hnext]
    rw [parse_loop, if_neg h, option_values_cons, hv]
    simp only [hnone', hnext, if_false]
    exact ih
  | case6 arg params h name_start hnone =>
    have hnone' : strchr (arg.drop 2) '=' = none := hnone
    have hv : option_value arg ([] : List Str).head? = none := by
      simp [option_value, h, hnone']
    rw [parse_loop, if_neg h, option_values_cons, hv]
    simp only [hnone']
    rfl

theorem find_parse_loop (toks : List Str) (m : MapT) (k : Str) :
    MapT.find (parse_loop toks m) k = (MapT.find m k).or (MapT.find (option_values toks) k) := by
  rw [parse_loop_eq_foldl, MapT.find_foldl_emplace]

/-! ## Positions of the argument vector -/

theorem suppliesAt_zero (t : Str) (rest : List Str) (n v : Str) :
    SuppliesAt (t :: rest) 0 n v ↔ option_value t rest.head? = some (n, v) := by
  rw [option_value_eq_some_iff]
  unfold SuppliesAt
  have hh : (t :: rest)[0 + 1]? = rest.head? := by
    cases rest <;> simp
  constructor
  · rintro ⟨t', ht, hs⟩
    have : t' = t := by simpa using ht.symm
    subst this
    rwa [hh] at hs
  · intro hs
    exact ⟨t, by simp, by rwa [hh]⟩

theorem suppliesAt_succ (t : Str) (rest : List Str) (i : Nat) (n v : Str) :
    SuppliesAt (t :: rest) (i + 1) n v ↔ SuppliesAt rest i n v := by
  unfold SuppliesAt
  simp only [List.getElem?_cons_succ]

theorem suppliesAt_nil (i : Nat) (n v : Str) : ¬ SuppliesAt [] i n v := by
  rintro ⟨t, ht, _⟩
  simp at ht

/-- The value of the first position of `toks` that supplies `n` is `v`. -/
theorem first_supplied_cons (t : Str) (rest : List Str) (n v : Str) :
    (∃ i, SuppliesAt (t :: rest) i n v ∧ ∀ j, j < i → ∀ w, ¬ SuppliesAt (t :: rest) j n w) ↔
      (option_value t rest.head? = some (n, v) ∨
        ((∀ w, option_value t rest.head? ≠ some (n, w)) ∧
          ∃ i, SuppliesAt rest i n v ∧ ∀ j, j < i → ∀ w, ¬ SuppliesAt rest j n w)) := by
  constructor
  · rintro ⟨i, hi, hlt⟩
    cases i with
    | zero => exact Or.inl ((suppliesAt_zero t rest n v).1 hi)
    | succ i =>
      right
      refine ⟨?_, i, (suppliesAt_succ t rest i n v).1 hi, ?_⟩
      · intro w hw
        exact hlt 0 (Nat.succ_pos i) w ((suppliesAt_zero t rest n w).2 hw)
      · intro j hj w hw
        exact hlt (j + 1) (Nat.succ_lt_succ hj) w ((suppliesAt_succ t rest j n w).2 hw)
  · rintro (h | ⟨h0, i, hi, hlt⟩)
    · exact ⟨0, (suppliesAt_zero t rest n v).2 h, fun j hj => absurd hj (Nat.not_lt_zero j)⟩
    · refine ⟨i + 1, (suppliesAt_succ t rest i n v).2 hi, ?_⟩
      intro j hj w hw
      cases j with
      | zero => exact h0 w ((suppliesAt_zero t rest n w).1 hw)
      | succ j =>
        exact hlt j (Nat.lt_of_succ_lt_succ hj) w ((suppliesAt_succ t rest j n w).1 hw)

theorem find_option_values_iff (toks : List Str) (n v : Str) :
    MapT.find (option_values toks) n = some v ↔
      ∃ i, SuppliesAt toks i n v ∧ ∀ j, j < i → ∀ w, ¬ SuppliesAt toks j n w := by
  induction toks with
  | nil =>
    constructor
    · intro h; simp [option_values, MapT.find] at h
    · rintro ⟨i, hi, _⟩; exact absurd hi (suppliesAt_nil i n v)
  | cons t rest ih =>
    rw [first_supplied_cons, option_values_cons, MapT.find_append, ← ih]
    cases hv : option_value t rest.head? with
    | none => simp [MapT.find]
    | some kx =>
      obtain ⟨k, x⟩ := kx
      by_cases hk : k = n
      · subst hk
        simp [MapT.find]
      · simp [MapT.find, hk]

/-! ## Duplicate names (C1) -/

/-- C1, refuted as stated: in `prog cmd --a 1 --a=2` the name `a` is given a
value at positions 2 (`1`) and 4 (`2`), position 4 is the last one that does
so, and yet the map returned by `parse_cmd` binds `a` to `1`, not to `2`. -/
theorem parse_cmd_last_occurrence_not_bound :
    SuppliesAt ["prog".toList, "cmd".toList, "--a".toList, "1".toList, "--a=2".toList] 2
        "a".toList "1".toList ∧
      SuppliesAt ["prog".toList, "cmd".toList, "--a".toList, "1".toList, "--a=2".toList] 4
        "a".toList "2".toList ∧
      (∀ j, 4 < j → ∀ w, ¬ SuppliesAt
        ["prog".toList, "cmd".toList, "--a".toList, "1".toList, "--a=2".toList] j "a".toList w) ∧
      (parse_cmd ["prog".toList, "cmd".toList, "--a".toList, "1".toList, "--a=2".toList]).2.find
        "a".toList = some "1".toList ∧
      (parse_cmd ["prog".toList, "cmd".toList, "--a".toList, "1".toList, "--a=2".toList]).2.find
        "a".toList ≠ some "2".toList := by
  refine ⟨⟨_, rfl, by decide⟩, ⟨_, rfl, by decide⟩, ?_, by decide, by decide⟩
  rintro j hj w ⟨t, ht, _⟩
  have hlen : j < ["prog".toList, "cmd".toList, "--a".toList, "1".toList, "--a=2".toList].length := by
    by_contra hge
    rw [List.getElem?_eq_none (Nat.le_of_not_lt hge)] at ht
    exact Option.noConfusion ht
  simp only [List.length_cons, List.length_nil] at hlen
  omega

/-- C1 (amended): for every argument vector, the map returned by `parse_cmd`
binds a name `n` to `v` exactly when some position from 2 on gives `n` the
value `v` (as `--n v` or `--n=v`) and no earlier position from 2 on gives `n`
any value: the FIRST occurrence of a name is the one that is bound. -/
theorem parse_cmd_binds_first_occurrence (argv : List Str) (n v : Str) :
    (parse_cmd argv).2.find n = some v ↔
      ∃ i, 2 ≤ i ∧ SuppliesAt argv i n v ∧
        ∀ j, 2 ≤ j → j < i → ∀ w, ¬ SuppliesAt argv j n w := by
  match argv with
  | [] =>
    constructor
    · intro h; simp [parse_cmd, MapT.find] at h
    · rintro ⟨i, _, hi, _⟩; exact absurd hi (suppliesAt_nil i n v)
  | [p] =>
    constructor
    · intro h; simp [parse_cmd, MapT.find] at h
    · rintro ⟨i, h2, ⟨t, ht, _⟩, _⟩
      obtain ⟨k, rfl⟩ := Nat.exists_eq_add_of_le h2
      rw [show 2 + k = (k + 1) + 1 by omega] at ht
      simp at ht
  | p :: c :: toks =>
    have hfind : (parse_cmd (p :: c :: toks)).2.find n = MapT.find (option_values toks) n := by
      show MapT.find (parse_loop toks []) n = _
      rw [find_parse_loop]; simp [MapT.find]
    have hshift : ∀ i w, SuppliesAt (p :: c :: toks) (i + 2) n w ↔ SuppliesAt toks i n w := by
      intro i w
      rw [show i + 2 = (i + 1) + 1 by omega, suppliesAt_succ, suppliesAt_succ]
    rw [hfind, find_option_values_iff]
    constructor
    · rintro ⟨i, hi, hlt⟩
      refine ⟨i + 2, by omega, (hshift i v).2 hi, ?_⟩
      intro j h2 hj w hw
      obtain ⟨k, rfl⟩ := Nat.exists_eq_add_of_le h2
      rw [show 2 + k = k + 2 by omega] at hw
      exact hlt k (by omega) w ((hshift k w).1 hw)
    · rintro ⟨i, h2, hi, hlt⟩
      obtain ⟨k, rfl⟩ := Nat.exists_eq_add_of_le h2
      rw [show 2 + k = k + 2 by omega] at hi
      refine ⟨k, (hshift k v).1 hi, ?_⟩
      intro j hj w hw
      exact hlt (j + 2) (by omega) (by omega) w ((hshift j w).2 hw)

/-! ## convert_string for int (C2) -/

/-- C2, evaluated on the claim's own examples: `convert_string<int>` accepts
`3abc` as 3 and `1.5` as 1, because only the error code of `from_chars` is
checked and the end pointer is not; ` 3`, `abc` and the empty string fail. -/
theorem convert_string_int_trailing_content :
    convert_string_int "3abc".toList = some 3 ∧
      convert_string_int "1.5".toList = some 1 ∧
      (from_chars "3abc".toList).ptr = 1 ∧ "3abc".toList.length = 4 ∧
      convert_string_int " 3".toList = none ∧
      convert_string_int "abc".toList = none ∧
      convert_string_int [] = none := by
  decide

/-! ## The binder -/

/-- The parameter `p` binds to `v` in the map `m`: its name has an entry and
the entry converts to `v` under the declared type. -/
theorem bind_param_true_iff (m : MapT) (p : ParameterSpec) :
    (bind_param m p).2 = true ↔
      ∃ raw v, m.find p.name = some raw ∧ convert_string p.type raw = some v := by
  unfold bind_param
  cases hf : m.find p.name with
  | none => simp
  | some raw =>
    cases hc : convert_string p.type raw with
    | none => simp [hc]
    | some v => simp [hc]

theorem bind_param_fst (m : MapT) (p : ParameterSpec) (raw : Str) (v : Value)
    (hf : m.find p.name = some raw) (hc : convert_string p.type raw = some v) :
    (bind_param m p).1 = v := by
  simp [bind_param, hf, hc]

theorem bind_all_fst (m : MapT) (ps : List ParameterSpec) (flag : Bool) :
    (bind_all m ps flag).1 = ps.map (fun p => (bind_param m p).1) := by
  induction ps generalizing flag with
  | nil => rfl
  | cons p ps ih => simp [bind_all, ih]

theorem bind_all_snd (m : MapT) (ps : List ParameterSpec) (flag : Bool) :
    (bind_all m ps flag).2 = (flag && ps.all (fun p => (bind_param m p).2)) := by
  induction ps generalizing flag with
  | nil => simp [bind_all]
  | cons p ps ih => simp [bind_all, ih, Bool.and_assoc]

theorem get_parameters_values_eq (ps : List ParameterSpec) (m : MapT) :
    get_parameters_values ps m =
      if ps.all (fun p => (bind_param m p).2) then some (ps.map (fun p => (bind_param m p).1))
      else none := by
  simp [get_parameters_values, bind_all_fst, bind_all_snd]

theorem get_parameters_values_eq_some_iff (ps : List ParameterSpec) (m : MapT)
    (vs : List Value) :
    get_parameters_values ps m = some vs ↔
      List.Forall₂ (fun p v => ∃ raw, m.find p.name = some raw ∧
        convert_string p.type raw = some v) ps vs := by
  rw [get_parameters_values_eq]
  induction ps generalizing vs with
  | nil =>
    cases vs <;> simp
  | cons p ps ih =>
    cases vs with
    | nil => simp
    | cons v vs =>
      rw [List.forall₂_cons, ← ih]
      by_cases hp : (bind_param m p).2 = true
      · obtain ⟨raw, v', hf, hc⟩ := (bind_param_true_iff m p).1 hp
        have h1 := bind_param_fst m p raw v' hf hc
        by_cases hall : (ps.all fun p => (bind_param m p).2) = true
        · simp only [List.all_cons, hp, hall, Bool.and_self, if_true, List.map_cons, h1,
            Option.some.injEq, List.cons.injEq]
          constructor
          · rintro ⟨rfl, rfl⟩
            exact ⟨⟨raw, hf, hc⟩, rfl⟩
          · rintro ⟨⟨raw', hf', hc'⟩, rfl⟩
            rw [hf] at hf'
            cases hf'
            rw [hc] at hc'
            cases hc'
            exact ⟨rfl, rfl⟩
        · simp [hp, hall]
      · have : ¬ ∃ raw, m.find p.name = some raw ∧ convert_string p.type raw = some v := by
          rintro ⟨raw, hf, hc⟩
          exact hp ((bind_param_true_iff m p).2 ⟨raw, v, hf, hc⟩)
        simp [hp, this]

theorem get_parameters_values_congr (ps : List ParameterSpec) (m m' : MapT)
    (h : ∀ p ∈ ps, m.find p.name = m'.find p.name) :
    get_parameters_values ps m = get_parameters_values ps m' := by
  have hb : ∀ p ∈ ps, bind_param m p = bind_param m' p := by
    intro p hp
    simp [bind_param, h p hp]
  rw [get_parameters_values_eq, get_parameters_values_eq]
  have h1 : ps.map (fun p => (bind_param m p).1) = ps.map (fun p => (bind_param m' p).1) :=
    List.map_congr_left (fun p hp => by rw [hb p hp])
  have h2 : ps.all (fun p => (bind_param m p).2) = ps.all (fun p => (bind_param m' p).2) := by
    rw [Bool.eq_iff_iff]
    simp only [List.all_eq_true]
    constructor
    · intro hh p hp; rw [← hb p hp]; exact hh p hp
    · intro hh p hp; rw [hb p hp]; exact hh p hp
  rw [h1, h2]

theorem MapT.find_eq_some_iff_mem {m : MapT} (hm : (m.map Prod.fst).Nodup) (k v : Str) :
    MapT.find m k = some v ↔ (k, v) ∈ m := by
  induction m with
  | nil => simp [MapT.find]
  | cons e m ih =>
    obtain ⟨k', v'⟩ := e
    simp only [List.map_cons, List.nodup_cons] at hm
    by_cases hk : k' = k
    · subst hk
      have : (k', v) ∉ m := fun hmem => hm.1 (List.mem_map.2 ⟨(k', v), hmem, rfl⟩)
      simp [MapT.find, this, eq_comm]
    · have hne : ¬ (k = k' ∧ v = v') := fun e => hk e.1.symm
      simp [MapT.find, hk, ih hm.2, hne]

theorem MapT.find_perm {m m' : MapT} (hp : m'.Perm m) (hm : (m.map Prod.fst).Nodup)
    (k : Str) : MapT.find m' k = MapT.find m k := by
  have hm' : (m'.map Prod.fst).Nodup := (hp.map Prod.fst).nodup_iff.2 hm
  apply Option.ext
  intro v
  simp only [Option.mem_def]
  rw [MapT.find_eq_some_iff_mem hm, MapT.find_eq_some_iff_mem hm']
  exact hp.mem_iff

theorem forall₂_getElem? {α β : Type} {R : α → β → Prop} {l₁ : List α} {l₂ : List β}
    (h : List.Forall₂ R l₁ l₂) (i : Nat) (a : α) (ha : l₁[i]? = some a) :
    ∃ b, l₂[i]? = some b ∧ R a b := by
  induction h generalizing i with
  | nil => simp at ha
  | cons hab _ ih =>
    cases i with
    | zero =>
      simp only [List.getElem?_cons_zero, Option.some.injEq] at ha
      subst ha
      exact ⟨_, by simp, hab⟩
    | succ i =>
      simp only [List.getElem?_cons_succ] at ha ⊢
      exact ih i ha

theorem forall₂_imp_of_mem {α β : Type} {R S : α → β → Prop} {l₁ : List α} {l₂ : List β}
    (h : List.Forall₂ R l₁ l₂) (himp : ∀ a ∈ l₁, ∀ b, R a b → S a b) :
    List.Forall₂ S l₁ l₂ := by
  induction h with
  | nil => exact List.Forall₂.nil
  | cons hab _ ih =>
    refine List.Forall₂.cons (himp _ (List.mem_cons_self _ _) _ hab) (ih ?_)
    intro a ha b hr
    exact himp a (List.mem_cons_of_mem _ ha) b hr

theorem get_parameters_values_none_iff_exists (ps : List ParameterSpec) (m : MapT) :
    get_parameters_values ps m = none ↔ ∃ p ∈ ps, (bind_param m p).2 = false := by
  rw [get_parameters_values_eq]
  by_cases hall : (ps.all fun p => (bind_param m p).2) = true
  · simp only [hall, if_true]
    constructor
    · intro h; exact absurd h (by simp)
    · rintro ⟨p, hp, hf⟩
      rw [List.all_eq_true] at hall
      rw [hall p hp] at hf
      exact absurd hf (by simp)
  · simp only [hall, if_false, true_iff]
    simpa using hall

theorem bind_param_false_iff (m : MapT) (p : ParameterSpec) :
    (bind_param m p).2 = false ↔
      (m.find p.name = none ∨
        ∃ raw, m.find p.name = some raw ∧ convert_string p.type raw = none) := by
  unfold bind_param
  cases hf : m.find p.name with
  | none => simp
  | some raw =>
    cases hc : convert_string p.type raw with
    | none => simp [hc]
    | some v => simp [hc]

/-! ## Binding fails exactly when some parameter fails (C3) -/

/-- C3: `get_parameters_values` returns no value if and only if some declared
parameter has no entry in the map or has an entry whose raw string the
converter of its declared type rejects; one such parameter is enough,
whatever the other parameters are. -/
theorem get_parameters_values_eq_none_iff (ps : List ParameterSpec) (m : MapT) :
    get_parameters_values ps m = none ↔
      ∃ p ∈ ps, m.find p.name = none ∨
        ∃ raw, m.find p.name = some raw ∧ convert_string p.type raw = none := by
  rw [get_parameters_values_none_iff_exists]
  constructor
  · rintro ⟨p, hp, hf⟩
    exact ⟨p, hp, (bind_param_false_iff m p).1 hf⟩
  · rintro ⟨p, hp, hf⟩
    exact ⟨p, hp, (bind_param_false_iff m p).2 hf⟩

/-! ## The bound values (C4) -/

/-- C4: when `get_parameters_values` succeeds with `vs`, `vs` has as many
entries as there are declared parameters, its `i`-th entry is the conversion,
under the type of the `i`-th declared parameter, of the raw string the map
holds for that parameter name, and the result does not depend on the order of
the entries of the map. -/
theorem get_parameters_values_entries (ps : List ParameterSpec) (m : MapT) (vs : List Value)
    (h : get_parameters_values ps m = some vs) :
    vs.length = ps.length ∧
      (∀ (i : Nat) (p : ParameterSpec), ps[i]? = some p →
        ∃ raw v, m.find p.name = some raw ∧ convert_string p.type raw = some v ∧
          vs[i]? = some v) ∧
      (∀ m' : MapT, m'.Perm m → (m.map Prod.fst).Nodup →
        get_parameters_values ps m' = some vs) := by
  have h2 := (get_parameters_values_eq_some_iff ps m vs).1 h
  refine ⟨h2.length_eq.symm, ?_, ?_⟩
  · intro i p hp
    obtain ⟨v, hv, raw, hf, hc⟩ := forall₂_getElem? h2 i p hp
    exact ⟨raw, v, hf, hc, hv⟩
  · intro m' hperm hnd
    rw [← h]
    exact get_parameters_values_congr ps m' m (fun p _ => MapT.find_perm hperm hnd p.name)

/-- C4 at `sum(int x, int y)` with a map that lists `y` before `x`. -/
theorem get_parameters_values_entries_witness :
    get_parameters_values sum_spec.parameters
        [("y".toList, "4".toList), ("x".toList, "3".toList)] = some [Value.int 3, Value.int 4] ∧
      ([Value.int 3, Value.int 4].length = sum_spec.parameters.length ∧
        (∀ (i : Nat) (p : ParameterSpec), sum_spec.parameters[i]? = some p →
          ∃ raw v, MapT.find [("y".toList, "4".toList), ("x".toList, "3".toList)] p.name = some raw ∧
            convert_string p.type raw = some v ∧ [Value.int 3, Value.int 4][i]? = some v) ∧
        (∀ m' : MapT, m'.Perm [("y".toList, "4".toList), ("x".toList, "3".toList)] →
          (([("y".toList, "4".toList), ("x".toList, "3".toList)] : MapT).map Prod.fst).Nodup →
          get_parameters_values sum_spec.parameters m' = some [Value.int 3, Value.int 4])) :=
  ⟨by decide, get_parameters_values_entries _ _ _ (by decide)⟩

/-! ## The two ways of writing a parameter -/

theorem parse_loop_eq_form (n v : Str) (rest : List Str) (m : MapT) (hn : '=' ∉ n) :
    parse_loop ((marker ++ n ++ '=' :: v) :: rest) m = parse_loop rest (m.emplace n v) := by
  have hm : ¬ has_marker (marker ++ n ++ '=' :: v) = false := by
    rw [List.append_assoc, has_marker_append]; simp
  have hd : (marker ++ n ++ '=' :: v).drop 2 = n ++ '=' :: v := by
    rw [List.append_assoc, drop_marker]
  rw [parse_loop, if_neg hm]
  simp only [hd, strchr_append_cons hn]
  simp

theorem parse_loop_two_tokens (n v : Str) (rest : List Str) (m : MapT) (hn : '=' ∉ n)
    (hv : has_marker v = false) :
    parse_loop ((marker ++ n) :: v :: rest) m = parse_loop rest (m.emplace n v) := by
  have hm : ¬ has_marker (marker ++ n) = false := by
    rw [has_marker_append]; simp
  rw [parse_loop, if_neg hm]
  simp only [drop_marker, strchr_eq_none.2 hn, hv, if_true]

theorem parse_loop_render (l : List Supplied) (m : MapT)
    (hname : ∀ a ∈ l, '=' ∉ a.name)
    (hvalue : ∀ a ∈ l, a.eq_form = false → has_marker a.value = false) :
    parse_loop (render l) m = l.foldl (fun m a => m.emplace a.name a.value) m := by
  induction l generalizing m with
  | nil => simp [render, parse_loop]
  | cons a l ih =>
    have hn := hname a (List.mem_cons_self _ _)
    have ih' := fun m => ih m (fun b hb => hname b (List.mem_cons_of_mem _ hb))
      (fun b hb => hvalue b (List.mem_cons_of_mem _ hb))
    cases hf : a.eq_form with
    | true =>
      simp only [render, Supplied.tokens, hf, if_true, List.singleton_append, List.foldl_cons]
      rw [parse_loop_eq_form _ _ _ _ hn, ih']
    | false =>
      have hv := hvalue a (List.mem_cons_self _ _) hf
      simp only [render, Supplied.tokens, hf, Bool.false_eq_true, if_false, List.cons_append,
        List.nil_append, List.foldl_cons]
      rw [parse_loop_two_tokens _ _ _ _ hn hv, ih']

theorem foldl_emplace_map (l : List Supplied) (m : MapT) :
    l.foldl (fun m a => m.emplace a.name a.value) m =
      (l.map (fun a => (a.name, a.value))).foldl (fun m p => m.emplace p.1 p.2) m := by
  induction l generalizing m with
  | nil => rfl
  | cons a l ih => simp only [List.foldl_cons, List.map_cons, ih]

/-! ## Both forms give the same map (C6) -/

/-- C6: two ways of writing the same list of (name, value) pairs, each pair
as `--name value` or as `--name=value` independently, give the same command
and the same parameter map, as long as no name contains `=` and no value
begins with the marker. -/
theorem parse_cmd_forms_agree (prog command : Str) (l₁ l₂ : List Supplied)
    (hsame : l₁.map (fun a => (a.name, a.value)) = l₂.map (fun a => (a.name, a.value)))
    (hname : ∀ a ∈ l₁, '=' ∉ a.name)
    (hvalue : ∀ a ∈ l₁, has_marker a.value = false) :
    parse_cmd (prog :: command :: render l₁) = parse_cmd (prog :: command :: render l₂) := by
  have hpair : ∀ b ∈ l₂, ∃ a ∈ l₁, a.name = b.name ∧ a.value = b.value := by
    intro b hb
    have hmem : (b.name, b.value) ∈ l₁.map (fun a => (a.name, a.value)) := by
      rw [hsame]; exact List.mem_map.2 ⟨b, hb, rfl⟩
    obtain ⟨a, ha, hab⟩ := List.mem_map.1 hmem
    simp only [Prod.mk.injEq] at hab
    exact ⟨a, ha, hab.1, hab.2⟩
  have hname₂ : ∀ b ∈ l₂, '=' ∉ b.name := by
    intro b hb
    obtain ⟨a, ha, h1, _⟩ := hpair b hb
    rw [← h1]; exact hname a ha
  have hvalue₂ : ∀ b ∈ l₂, b.eq_form = false → has_marker b.value = false := by
    intro b hb _
    obtain ⟨a, ha, _, h2⟩ := hpair b hb
    rw [← h2]; exact hvalue a ha
  show (command, parse_loop (render l₁) []) = (command, parse_loop (render l₂) [])
  rw [parse_loop_render l₁ [] hname (fun a ha _ => hvalue a ha),
    parse_loop_render l₂ [] hname₂ hvalue₂, foldl_emplace_map, foldl_emplace_map, hsame]

/-- C6 at `a = 1`, `b = x=y` written as `--a 1 --b=x=y` and as `--a=1 --b x=y`. -/
theorem parse_cmd_forms_agree_witness :
    (forms_input₁.map (fun a => (a.name, a.value)) =
        forms_input₂.map (fun a => (a.name, a.value)) ∧
      (∀ a ∈ forms_input₁, '=' ∉ a.name) ∧
      (∀ a ∈ forms_input₁, has_marker a.value = false)) ∧
    parse_cmd ("prog".toList :: "cmd".toList :: render forms_input₁) =
      parse_cmd ("prog".toList :: "cmd".toList :: render forms_input₂) :=
  ⟨⟨by decide, by decide, by decide⟩,
    parse_cmd_forms_agree _ _ _ _ (by decide) (by decide) (by decide)⟩

/-! ## Tokenize, then bind (C5) -/

theorem find_foldl_supplied (args : List Supplied) (hnd : (args.map (fun a => a.name)).Nodup)
    (a : Supplied) (ha : a ∈ args) :
    MapT.find (args.foldl (fun m a => m.emplace a.name a.value) []) a.name = some a.value := by
  rw [foldl_emplace_map, MapT.find_foldl_emplace]
  have hkeys : ((args.map (fun a => (a.name, a.value))).map Prod.fst).Nodup := by
    simpa [List.map_map, Function.comp_def] using hnd
  have hmem : (a.name, a.value) ∈ args.map (fun a => (a.name, a.value)) :=
    List.mem_map.2 ⟨a, ha, rfl⟩
  rw [(MapT.find_eq_some_iff_mem hkeys a.name a.value).2 hmem]
  simp [MapT.find]

/-- C5: for a parameter list with distinct names and an argument vector that
writes each declared parameter exactly once, in any order and in either form
(names without `=`, two-token values not beginning with the marker, every
value convertible to the declared type), binding the map of `parse_cmd`
succeeds, and the bound values are, in declared order, the conversions of the
strings supplied for the declared names. -/
theorem parse_then_bind_round_trip (prog command : Str) (ps : List ParameterSpec)
    (args : List Supplied)
    (hdistinct : (ps.map (fun p => p.name)).Nodup)
    (hperm : (args.map (fun a => a.name)).Perm (ps.map (fun p => p.name)))
    (hname : ∀ a ∈ args, '=' ∉ a.name)
    (hvalue : ∀ a ∈ args, a.eq_form = false → has_marker a.value = false)
    (hconv : ∀ a ∈ args, ∀ p ∈ ps, p.name = a.name →
      (convert_string p.type a.value).isSome = true) :
    ∃ vs, get_parameters_values ps (parse_cmd (prog :: command :: render args)).2 = some vs ∧
      List.Forall₂ (fun p v => ∃ a ∈ args, a.name = p.name ∧
        convert_string p.type a.value = some v) ps vs := by
  have hnd : (args.map (fun a => a.name)).Nodup := hperm.nodup_iff.2 hdistinct
  have hmap : (parse_cmd (prog :: command :: render args)).2
      = args.foldl (fun (m : MapT) a => m.emplace a.name a.value) [] :=
    parse_loop_render args [] hname hvalue
  have hsupplied : ∀ p ∈ ps, ∃ a ∈ args, a.name = p.name := by
    intro p hp
    have : p.name ∈ args.map (fun a => a.name) :=
      hperm.mem_iff.2 (List.mem_map.2 ⟨p, hp, rfl⟩)
    obtain ⟨a, ha, hap⟩ := List.mem_map.1 this
    exact ⟨a, ha, hap⟩
  cases hres : get_parameters_values ps (parse_cmd (prog :: command :: render args)).2 with
  | none =>
    exfalso
    obtain ⟨p, hp, hfalse⟩ := (get_parameters_values_none_iff_exists ps _).1 hres
    have hfail := (bind_param_false_iff _ p).1 hfalse
    obtain ⟨a, ha, hap⟩ := hsupplied p hp
    have hfind := find_foldl_supplied args hnd a ha
    rw [hmap, ← hap, hfind] at hfail
    rcases hfail with hfail | ⟨raw, hraw, hnone⟩
    · exact Option.noConfusion hfail
    · cases hraw
      have := hconv a ha p hp hap.symm
      rw [hnone] at this
      exact Bool.noConfusion this
  | some vs =>
    refine ⟨vs, rfl, ?_⟩
    refine forall₂_imp_of_mem ((get_parameters_values_eq_some_iff ps _ vs).1 hres) ?_
    rintro p hp v ⟨raw, hraw, hv⟩
    obtain ⟨a, ha, hap⟩ := hsupplied p hp
    have hfind := find_foldl_supplied args hnd a ha
    rw [hmap, ← hap, hfind] at hraw
    cases hraw
    exact ⟨a, ha, hap, hv⟩

/-- C5 at `cat(prefix, root, suffix)` with `--suffix=c --prefix a --root=b`. -/
theorem parse_then_bind_round_trip_witness :
    ((cat_spec.parameters.map (fun p => p.name)).Nodup ∧
      (cat_input.map (fun a => a.name)).Perm (cat_spec.parameters.map (fun p => p.name)) ∧
      (∀ a ∈ cat_input, '=' ∉ a.name) ∧
      (∀ a ∈ cat_input, a.eq_form = false → has_marker a.value = false) ∧
      (∀ a ∈ cat_input, ∀ p ∈ cat_spec.parameters, p.name = a.name →
        (convert_string p.type a.value).isSome = true)) ∧
    ∃ vs, get_parameters_values cat_spec.parameters
        (parse_cmd ("prog".toList :: "cat".toList :: render cat_input)).2 = some vs ∧
      List.Forall₂ (fun p v => ∃ a ∈ cat_input, a.name = p.name ∧
        convert_string p.type a.value = some v) cat_spec.parameters vs :=
  ⟨⟨by decide, by decide, by decide, by decide, by decide⟩,
    parse_then_bind_round_trip _ _ _ _ (by decide) (by decide) (by decide) (by decide)
      (by decide)⟩

/-! ## Keys of the map and the marker (C7) -/

theorem mem_foldl_emplace (l : List (Str × Str)) (m : MapT) (e : Str × Str)
    (h : e ∈ l.foldl (fun m p => m.emplace p.1 p.2) m) : e ∈ m ∨ e ∈ l := by
  induction l generalizing m with
  | nil => exact Or.inl h
  | cons a l ih =>
    rcases ih _ h with h1 | h1
    · have h1 : e ∈ m.emplace a.1 a.2 := h1
      unfold MapT.emplace at h1
      cases hf : MapT.find m a.1 with
      | some x => rw [hf] at h1; exact Or.inl h1
      | none =>
        rw [hf] at h1
        rcases List.mem_append.1 h1 with h2 | h2
        · exact Or.inl h2
        · right
          have : e = a := by simpa using h2
          rw [this]; exact List.mem_cons_self _ _
    · exact Or.inr (List.mem_cons_of_mem _ h1)

theorem mem_option_values (toks : List Str) (e : Str × Str) (h : e ∈ option_values toks) :
    ∃ t ∈ toks, ∃ next, option_value t next = some e := by
  induction toks with
  | nil => simp [option_values] at h
  | cons t rest ih =>
    rw [option_values_cons] at h
    rcases List.mem_append.1 h with h1 | h1
    · refine ⟨t, List.mem_cons_self _ _, rest.head?, ?_⟩
      simpa [Option.mem_toList] using h1
    · obtain ⟨t', ht', next, hn⟩ := ih h1
      exact ⟨t', List.mem_cons_of_mem _ ht', next, hn⟩

theorem mem_option_values_iff (toks : List Str) (k v : Str) :
    (k, v) ∈ option_values toks ↔ ∃ i, SuppliesAt toks i k v := by
  induction toks with
  | nil =>
    constructor
    · intro h; simp [option_values] at h
    · rintro ⟨i, hi⟩; exact absurd hi (suppliesAt_nil i k v)
  | cons t rest ih =>
    rw [option_values_cons, List.mem_append, ih]
    constructor
    · rintro (h | ⟨i, hi⟩)
      · refine ⟨0, (suppliesAt_zero t rest k v).2 ?_⟩
        simpa [Option.mem_toList] using h
      · exact ⟨i + 1, (suppliesAt_succ t rest i k v).2 hi⟩
    · rintro ⟨i, hi⟩
      cases i with
      | zero =>
        left
        have := (suppliesAt_zero t rest k v).1 hi
        simp [Option.mem_toList, this]
      | succ i => exact Or.inr ⟨i, (suppliesAt_succ t rest i k v).1 hi⟩

theorem suppliesAt_shift_two (p c : Str) (toks : List Str) (i : Nat) (k v : Str) :
    SuppliesAt (p :: c :: toks) (i + 2) k v ↔ SuppliesAt toks i k v := by
  rw [show i + 2 = (i + 1) + 1 by omega, suppliesAt_succ, suppliesAt_succ]

/-- The entries of the map of `parse_cmd` and the positions of the argument
vector: an entry comes from a position that supplies it, and a name supplied
at some position has an entry. -/
theorem mem_parse_cmd_iff (argv : List Str) (k v : Str) :
    ((k, v) ∈ (parse_cmd argv).2 → ∃ i, 2 ≤ i ∧ SuppliesAt argv i k v) ∧
      ((∃ i, 2 ≤ i ∧ SuppliesAt argv i k v) → ∃ w, (k, w) ∈ (parse_cmd argv).2) := by
  match argv with
  | [] =>
    refine ⟨fun h => by simp [parse_cmd] at h, ?_⟩
    rintro ⟨i, _, hi⟩
    exact absurd hi (suppliesAt_nil i k v)
  | [p] =>
    refine ⟨fun h => by simp [parse_cmd] at h, ?_⟩
    rintro ⟨i, h2, t, ht, _⟩
    obtain ⟨j, rfl⟩ := Nat.exists_eq_add_of_le h2
    rw [show 2 + j = (j + 1) + 1 by omega] at ht
    simp at ht
  | p :: c :: toks =>
    constructor
    · intro h
      have h' : (k, v) ∈ parse_loop toks [] := h
      rw [parse_loop_eq_foldl] at h'
      rcases mem_foldl_emplace _ _ _ h' with h1 | h1
      · simp at h1
      · obtain ⟨i, hi⟩ := (mem_option_values_iff toks k v).1 h1
        exact ⟨i + 2, by omega, (suppliesAt_shift_two p c toks i k v).2 hi⟩
    · rintro ⟨i, h2, hi⟩
      obtain ⟨j, rfl⟩ := Nat.exists_eq_add_of_le h2
      rw [show 2 + j = j + 2 by omega, suppliesAt_shift_two] at hi
      have hmem : (k, v) ∈ option_values toks := (mem_option_values_iff toks k v).2 ⟨j, hi⟩
      obtain ⟨w, hw⟩ := MapT.find_isSome_of_mem hmem
      refine ⟨w, MapT.mem_of_find ?_⟩
      show MapT.find (parse_loop toks []) k = some w
      rw [find_parse_loop, hw]
      simp [MapT.find]

theorem mem_drop_of_getElem? {α : Type} (l : List α) (i n : Nat) (a : α) (hn : n ≤ i)
    (h : l[i]? = some a) : a ∈ l.drop n := by
  obtain ⟨j, rfl⟩ := Nat.exists_eq_add_of_le hn
  have : (l.drop n)[j]? = some a := by rw [List.getElem?_drop]; exact h
  exact List.mem_iff_getElem?.2 ⟨j, this⟩

/-- C7, refuted as stated: the token `----x=1` loses one marker only, so the
map of `prog cmd ----x=1` has the key `--x`, which begins with the marker. -/
theorem parse_cmd_key_with_marker :
    (parse_cmd ["prog".toList, "cmd".toList, "----x=1".toList]).2
        = [("--x".toList, "1".toList)] ∧
      has_marker "--x".toList = true := by
  decide

/-- C7 (amended): every key of the map returned by `parse_cmd` is the text
that follows exactly one leading marker of a token after the command: the
whole rest of the token when that has no `=` (the value is then the next
token), or the part before its first `=` (the value is then the part after
it); conversely every name so supplied is a key. Hence a key begins with the
marker only if such a token begins with two markers, and no key does when no
token begins with `----`. -/
theorem parse_cmd_keys_strip_one_marker (argv : List Str) (k v : Str) :
    ((k, v) ∈ (parse_cmd argv).2 →
        (∃ i, 2 ≤ i ∧ SuppliesAt argv i k v) ∧
          ∃ t ∈ argv.drop 2, '=' ∉ k ∧ (t = marker ++ k ∨ t = marker ++ k ++ '=' :: v)) ∧
      ((∃ i, 2 ≤ i ∧ SuppliesAt argv i k v) → ∃ w, (k, w) ∈ (parse_cmd argv).2) ∧
      ((k, v) ∈ (parse_cmd argv).2 →
        (∀ t ∈ argv.drop 2, ∀ s, t ≠ marker ++ (marker ++ s)) → has_marker k = false) := by
  have hshape : (k, v) ∈ (parse_cmd argv).2 →
      (∃ i, 2 ≤ i ∧ SuppliesAt argv i k v) ∧
        ∃ t ∈ argv.drop 2, '=' ∉ k ∧ (t = marker ++ k ∨ t = marker ++ k ++ '=' :: v) := by
    intro h
    obtain ⟨i, h2, t, ht, hs⟩ := (mem_parse_cmd_iff argv k v).1 h
    refine ⟨⟨i, h2, t, ht, hs⟩, t, mem_drop_of_getElem? argv i 2 t h2 ht, ?_⟩
    rcases hs with ⟨h1, hk⟩ | ⟨h1, hk, _, _⟩
    · exact ⟨hk, Or.inr h1⟩
    · exact ⟨hk, Or.inl h1⟩
  refine ⟨hshape, (mem_parse_cmd_iff argv k v).2, ?_⟩
  intro h hno
  obtain ⟨_, t, ht, _, hs⟩ := hshape h
  cases hk : has_marker k with
  | false => rfl
  | true =>
    exfalso
    obtain ⟨k', rfl⟩ := (has_marker_iff k).1 hk
    rcases hs with hs | hs
    · exact hno t ht k' (by rw [hs])
    · exact hno t ht (k' ++ '=' :: v) (by rw [hs]; simp [List.append_assoc])

/-- C7 (amended) at `prog cmd --a 1 --b=x=y`: the entries `a -> 1` and
`b -> x=y` come from the tokens `--a` and `--b=x=y`, and no key begins with
the marker. -/
theorem parse_cmd_keys_strip_one_marker_witness :
    (("a".toList, "1".toList) ∈ (parse_cmd keys_argv).2 ∧
      ("b".toList, "x=y".toList) ∈ (parse_cmd keys_argv).2 ∧
      ∀ t ∈ keys_argv.drop 2, ∀ s, t ≠ marker ++ (marker ++ s)) ∧
      ((∃ i, 2 ≤ i ∧ SuppliesAt keys_argv i "a".toList "1".toList) ∧
        ∃ t ∈ keys_argv.drop 2, '=' ∉ "a".toList ∧
          (t = marker ++ "a".toList ∨ t = marker ++ "a".toList ++ '=' :: "1".toList)) ∧
      ((∃ i, 2 ≤ i ∧ SuppliesAt keys_argv i "b".toList "x=y".toList) ∧
        ∃ t ∈ keys_argv.drop 2, '=' ∉ "b".toList ∧
          (t = marker ++ "b".toList ∨ t = marker ++ "b".toList ++ '=' :: "x=y".toList)) ∧
      has_marker "b".toList = false ∧
      (parse_cmd keys_argv).2 = [("a".toList, "1".toList), ("b".toList, "x=y".toList)] := by
  have hno : ∀ t ∈ keys_argv.drop 2, ∀ s, t ≠ marker ++ (marker ++ s) := by
    intro t ht s hs
    subst hs
    simp [keys_argv, marker] at ht
  exact ⟨⟨by decide, by decide, hno⟩,
    (parse_cmd_keys_strip_one_marker keys_argv "a".toList "1".toList).1 (by decide),
    (parse_cmd_keys_strip_one_marker keys_argv "b".toList "x=y".toList).1 (by decide),
    (parse_cmd_keys_strip_one_marker keys_argv "b".toList "x=y".toList).2.2 (by decide) hno,
    by decide⟩

/-! ## Dispatch -/

theorem run_eq_of_all_fail {σ : Type} (cmds : List (CommandSpec σ)) (command : Str)
    (params : MapT) (w : σ)
    (h : ∀ c ∈ cmds, c.name = command → get_parameters_values c.parameters params = none) :
    run cmds command params w = (1, w) := by
  induction cmds with
  | nil => rfl
  | cons f fs ih =>
    have ih' := ih (fun c hc => h c (List.mem_cons_of_mem _ hc))
    by_cases hn : f.name = command
    · rw [run, if_pos hn, h f (List.mem_cons_self _ _) hn]
      exact ih'
    · rw [run, if_neg hn]
      exact ih'

theorem run_skip_failing {σ : Type} (pre post : List (CommandSpec σ)) (command : Str)
    (params : MapT) (w : σ)
    (h : ∀ c ∈ pre, c.name = command → get_parameters_values c.parameters params = none) :
    run (pre ++ post) command params w = run post command params w := by
  induction pre with
  | nil => rfl
  | cons f fs ih =>
    have ih' := ih (fun c hc => h c (List.mem_cons_of_mem _ hc))
    by_cases hn : f.name = command
    · rw [List.cons_append, run, if_pos hn, h f (List.mem_cons_self _ _) hn]
      exact ih'
    · rw [List.cons_append, run, if_neg hn]
      exact ih'

/-! ## Command not found (C8) -/

/-- C8: `run` returns 1 and leaves the state untouched, so that no handler
has run, whenever the command string differs from every registered name;
registered names are identifiers, never the empty string, and then the same
holds for the empty command string and for `run` on an argument vector
without a command (`argc < 2`). -/
theorem run_command_not_found {σ : Type} (cmds : List (CommandSpec σ)) (command : Str)
    (params : MapT) (w : σ) :
    ((∀ c ∈ cmds, c.name ≠ command) → run cmds command params w = (1, w)) ∧
      ((∀ c ∈ cmds, c.name ≠ []) →
        run cmds [] params w = (1, w) ∧
          ∀ argv : List Str, argv.length < 2 → run_main cmds argv w = (1, w)) := by
  have hnot : ∀ command' : Str, (∀ c ∈ cmds, c.name ≠ command') →
      ∀ params' : MapT, run cmds command' params' w = (1, w) := by
    intro command' hne params'
    exact run_eq_of_all_fail cmds command' params' w (fun c hc hn => absurd hn (hne c hc))
  refine ⟨fun hne => hnot command hne params, fun hnames => ⟨hnot [] hnames params, ?_⟩⟩
  intro argv hlen
  match argv, hlen with
  | [], _ => exact hnot [] hnames []
  | [_], _ => exact hnot [] hnames []
  | _ :: _ :: _, hlen => exact absurd hlen (by simp)

/-- C8 at the commands of main.cpp: `prog unknown --x 1`, the empty command,
and no command at all. -/
theorem run_command_not_found_witness :
    ((∀ c ∈ [sum_spec, sqr_spec, cat_spec], c.name ≠ (parse_cmd unknown_argv).1) ∧
      (∀ c ∈ [sum_spec, sqr_spec, cat_spec], c.name ≠ [])) ∧
      run_main [sum_spec, sqr_spec, cat_spec] unknown_argv "out".toList = (1, "out".toList) ∧
      run [sum_spec, sqr_spec, cat_spec] [] [("x".toList, "1".toList)] "out".toList
        = (1, "out".toList) ∧
      run_main [sum_spec, sqr_spec, cat_spec] ["prog".toList] "out".toList
        = (1, "out".toList) ∧
      run_main [sum_spec, sqr_spec, cat_spec] [] "out".toList = (1, "out".toList) :=
  ⟨⟨by decide, by decide⟩,
    (run_command_not_found [sum_spec, sqr_spec, cat_spec] (parse_cmd unknown_argv).1
      (parse_cmd unknown_argv).2 "out".toList).1 (by decide),
    ((run_command_not_found [sum_spec, sqr_spec, cat_spec] [] [("x".toList, "1".toList)]
      "out".toList).2 (by decide)).1,
    ((run_command_not_found [sum_spec, sqr_spec, cat_spec] [] [] "out".toList).2
      (by decide)).2 ["prog".toList] (by decide),
    ((run_command_not_found [sum_spec, sqr_spec, cat_spec] [] [] "out".toList).2
      (by decide)).2 [] (by decide)⟩

/-! ## Binding failure (C9) -/

/-- C9, refuted as stated: with two registered functions of the same
identifier `f`, the first taking `x` and the second `y`, the command `f` with
only `y` supplied matches the first function, whose binding fails, and yet
`run` does not return 1: it goes on to the second function, runs it and
returns its 5. -/
theorem run_binding_failure_falls_through :
    first_f.name = "f".toList ∧
      get_parameters_values first_f.parameters [("y".toList, "1".toList)] = none ∧
      run [first_f, second_f] "f".toList [("y".toList, "1".toList)] []
        = (5, "second".toList) ∧
      run [first_f, second_f] "f".toList [("y".toList, "1".toList)] [] ≠ (1, []) := by
  decide

/-- C9 (amended): if binding fails for every registered function whose name
equals the command string (for the one matched function, when the registered
names are distinct), `run` returns 1 and no handler is invoked: the state is
left untouched. -/
theorem run_binding_failure {σ : Type} (cmds : List (CommandSpec σ)) (command : Str)
    (params : MapT) (w : σ)
    (hfail : ∀ c ∈ cmds, c.name = command →
      get_parameters_values c.parameters params = none) :
    run cmds command params w = (1, w) :=
  run_eq_of_all_fail cmds command params w hfail

/-- C9 (amended) at `prog sum --x abc --y 4`: `x` does not convert. -/
theorem run_binding_failure_witness :
    ((∃ c ∈ [sum_spec, sqr_spec, cat_spec], c.name = (parse_cmd sum_bad_argv).1) ∧
      (∀ c ∈ [sum_spec, sqr_spec, cat_spec], c.name = (parse_cmd sum_bad_argv).1 →
        get_parameters_values c.parameters (parse_cmd sum_bad_argv).2 = none)) ∧
      run [sum_spec, sqr_spec, cat_spec] (parse_cmd sum_bad_argv).1 (parse_cmd sum_bad_argv).2
        "out".toList = (1, "out".toList) :=
  ⟨⟨⟨sum_spec, by simp, by decide⟩, by decide⟩,
    run_binding_failure _ _ _ _ (by decide)⟩

/-! ## Successful dispatch (C10) -/

/-- C10: when the command string matches a registered function (the first
one of that name in registration order) and binding its declared parameters
succeeds with `vs`, `run` returns exactly what that handler returns when
applied to `vs`, the bound values in declared order. -/
theorem run_invokes_matched {σ : Type} (cmds : List (CommandSpec σ)) (command : Str)
    (params : MapT) (w : σ) (c : CommandSpec σ) (vs : List Value)
    (hfind : cmds.find? (fun c => decide (c.name = command)) = some c)
    (hbind : get_parameters_values c.parameters params = some vs) :
    run cmds command params w = c.invoke vs w := by
  induction cmds with
  | nil => simp at hfind
  | cons f fs ih =>
    by_cases hn : f.name = command
    · have hfc : f = c := by simpa [List.find?, hn] using hfind
      subst hfc
      rw [run, if_pos hn, hbind]
    · have hrest : fs.find? (fun c => decide (c.name = command)) = some c := by
        simpa [List.find?, hn] using hfind
      rw [run, if_neg hn]
      exact ih hrest

/-- C10 at `prog sum --x 3 --y 4`: `sum(3, 4)` is called, writes `3+4=7` and
its 0 is returned. -/
theorem run_invokes_matched_witness :
    ([sum_spec, sqr_spec, cat_spec].find? (fun c => decide (c.name = (parse_cmd sum_argv).1))
        = some sum_spec ∧
      get_parameters_values sum_spec.parameters (parse_cmd sum_argv).2
        = some [Value.int 3, Value.int 4]) ∧
      run [sum_spec, sqr_spec, cat_spec] (parse_cmd sum_argv).1 (parse_cmd sum_argv).2 []
        = sum_spec.invoke [Value.int 3, Value.int 4] [] ∧
      sum_spec.invoke [Value.int 3, Value.int 4] [] = sum 3 4 [] ∧
      sum 3 4 [] = (0, "3+4=7".toList) :=
  ⟨⟨rfl, by decide⟩,
    run_invokes_matched [sum_spec, sqr_spec, cat_spec] (parse_cmd sum_argv).1
      (parse_cmd sum_argv).2 [] sum_spec [Value.int 3, Value.int 4] rfl (by decide),
    rfl, by decide⟩

/-! ## convert_string for bool (C11) -/

theorem convert_string_bool_cases (s : Str) :
    (s = "true".toList ∨ s = "1".toList) ∧ convert_string_bool s = some true ∨
      (s = "false".toList ∨ s = "0".toList) ∧ convert_string_bool s = some false ∨
      (s ≠ "true".toList ∧ s ≠ "1".toList ∧ s ≠ "false".toList ∧ s ≠ "0".toList) ∧
        convert_string_bool s = none := by
  unfold convert_string_bool
  by_cases h1 : s = "true".toList ∨ s = "1".toList
  · exact Or.inl ⟨h1, if_pos h1⟩
  · by_cases h2 : s = "false".toList ∨ s = "0".toList
    · rw [if_neg h1, if_pos h2]
      exact Or.inr (Or.inl ⟨h2, rfl⟩)
    · rw [if_neg h1, if_neg h2]
      exact Or.inr (Or.inr ⟨⟨fun h => h1 (Or.inl h), fun h => h1 (Or.inr h),
        fun h => h2 (Or.inl h), fun h => h2 (Or.inr h)⟩, rfl⟩)

/-- C11: `convert_string<bool>` returns true exactly on `true` and `1`, false
exactly on `false` and `0`, and no value on every other string, such as
`True`, `TRUE`, `yes` and the empty string. -/
theorem convert_string_bool_exact (s : Str) :
    (convert_string_bool s = some true ↔ s = "true".toList ∨ s = "1".toList) ∧
      (convert_string_bool s = some false ↔ s = "false".toList ∨ s = "0".toList) ∧
      (convert_string_bool s = none ↔
        s ≠ "true".toList ∧ s ≠ "1".toList ∧ s ≠ "false".toList ∧ s ≠ "0".toList) ∧
      convert_string_bool "True".toList = none ∧
      convert_string_bool "TRUE".toList = none ∧
      convert_string_bool "yes".toList = none ∧
      convert_string_bool [] = none := by
  refine ⟨?_, ?_, ?_, by decide, by decide, by decide, by decide⟩
  · rcases convert_string_bool_cases s with ⟨h, e⟩ | ⟨h, e⟩ | ⟨h, e⟩
    · exact ⟨fun _ => h, fun _ => e⟩
    · rw [e]
      refine ⟨fun x => absurd x (by simp), fun x => ?_⟩
      rcases h with rfl | rfl <;> rcases x with x | x <;> exact absurd x (by decide)
    · rw [e]
      refine ⟨fun x => absurd x (by simp), fun x => ?_⟩
      rcases x with x | x
      · exact absurd x h.1
      · exact absurd x h.2.1
  · rcases convert_string_bool_cases s with ⟨h, e⟩ | ⟨h, e⟩ | ⟨h, e⟩
    · rw [e]
      refine ⟨fun x => absurd x (by simp), fun x => ?_⟩
      rcases h with rfl | rfl <;> rcases x with x | x <;> exact absurd x (by decide)
    · exact ⟨fun _ => h, fun _ => e⟩
    · rw [e]
      refine ⟨fun x => absurd x (by simp), fun x => ?_⟩
      rcases x with x | x
      · exact absurd x h.2.2.1
      · exact absurd x h.2.2.2
  · rcases convert_string_bool_cases s with ⟨h, e⟩ | ⟨h, e⟩ | ⟨h, e⟩
    · rw [e]
      refine ⟨fun x => absurd x (by simp), fun x => ?_⟩
      rcases h with h | h
      · exact absurd h x.1
      · exact absurd h x.2.1
    · rw [e]
      refine ⟨fun x => absurd x (by simp), fun x => ?_⟩
      rcases h with h | h
      · exact absurd h x.2.2.1
      · exact absurd h x.2.2.2
    · exact ⟨fun _ => h, fun _ => e⟩

/-! ## The integer converter on well-formed and on arbitrary text -/

theorem takeWhile_append_of_all {α : Type} (p : α → Bool) (l t : List α)
    (h : ∀ a ∈ l, p a = true) : (l ++ t).takeWhile p = l ++ t.takeWhile p := by
  induction l with
  | nil => rfl
  | cons a l ih =>
    have ha : p a = true := h a (List.mem_cons_self _ _)
    simp only [List.cons_append, List.takeWhile_cons, ha, if_true]
    rw [ih (fun b hb => h b (List.mem_cons_of_mem _ hb))]

theorem takeWhile_all {α : Type} (p : α → Bool) (l : List α) : ∀ a ∈ l.takeWhile p, p a = true := by
  intro a ha
  exact (List.mem_takeWhile_imp ha)

theorem digits_value_append (ds : Str) (c : Char) :
    digits_value (ds ++ [c]) = 10 * digits_value ds + (c.toNat - '0'.toNat) := by
  simp [digits_value, List.foldl_append]

theorem digits_value_eq_ofDigits (ds : Str) :
    digits_value ds = Nat.ofDigits 10 ((ds.map (fun c => c.toNat - '0'.toNat)).reverse) := by
  induction ds using List.reverseRecOn with
  | nil => simp [digits_value]
  | append_singleton ds c ih =>
    rw [digits_value_append, ih]
    simp [Nat.ofDigits_cons, Nat.add_comm]

/-- The record `from_chars` returns, in terms of the digit run it finds. -/
theorem convert_string_int_eq (s : Str) :
    convert_string_int s =
      if (digit_part s).takeWhile Char.isDigit = [] then none
      else
        let v : Int := if s.head? = some '-'
          then -(digits_value ((digit_part s).takeWhile Char.isDigit) : Int)
          else (digits_value ((digit_part s).takeWhile Char.isDigit) : Int)
        if INT_MIN ≤ v ∧ v ≤ INT_MAX then some v else none := by
  unfold convert_string_int from_chars digit_part
  by_cases hneg : s.head? = some '-'
  · simp only [hneg, decide_True, if_true]
    split_ifs <;> simp_all
  · simp only [hneg, decide_False, if_false, Bool.false_eq_true]
    split_ifs <;> simp_all

theorem int_form_iff (q : Str) :
    int_form q = true ↔ digit_part q ≠ [] ∧ ∀ c ∈ digit_part q, c.isDigit = true := by
  unfold int_form
  cases h : digit_part q with
  | nil => simp
  | cons a l => simp

theorem digit_part_cons_minus (b : Str) : digit_part ('-' :: b) = b := by
  simp [digit_part]

theorem digit_part_of_head_ne {s : Str} (h : s.head? ≠ some '-') : digit_part s = s := by
  simp [digit_part, h]

theorem head_digit_ne_minus {q : Str} (hne : q ≠ []) (hd : ∀ c ∈ q, c.isDigit = true) :
    q.head? ≠ some '-' := by
  cases q with
  | nil => exact absurd rfl hne
  | cons a l =>
    intro h
    have ha : a = '-' := by simpa using h
    have := hd a (List.mem_cons_self _ _)
    rw [ha] at this
    exact absurd this (by decide)

/-- A text of integer form, followed by anything: the sign is kept and the
digits are found again at the start of the digit part. -/
theorem int_form_append {q : Str} (hq : int_form q = true) (t : Str) :
    (q ++ t).head? = q.head? ∧ digit_part (q ++ t) = digit_part q ++ t := by
  obtain ⟨hne, _⟩ := (int_form_iff q).1 hq
  cases q with
  | nil => exact absurd (by simp [digit_part]) hne
  | cons a l =>
    refine ⟨rfl, ?_⟩
    by_cases ha : a = '-'
    · subst ha; simp [digit_part]
    · have h1 : (a :: l).head? ≠ some '-' := by simpa using ha
      have h2 : (a :: l ++ t).head? ≠ some '-' := by simpa using ha
      rw [digit_part_of_head_ne h1, digit_part_of_head_ne h2]

theorem length_eq_sign_add_digit_part (q : Str) (hq : int_form q = true) :
    q.length = (if q.head? = some '-' then 1 else 0) + (digit_part q).length := by
  obtain ⟨hne, _⟩ := (int_form_iff q).1 hq
  cases q with
  | nil => exact absurd (by simp [digit_part]) hne
  | cons a l =>
    by_cases ha : a = '-'
    · subst ha; simp [digit_part]; omega
    · have h1 : (a :: l).head? ≠ some '-' := by simpa using ha
      rw [digit_part_of_head_ne h1, if_neg h1]; simp

theorem length_int_head (s : Str) :
    (int_head s).length =
      (if s.head? = some '-' then 1 else 0) + ((digit_part s).takeWhile Char.isDigit).length := by
  unfold int_head
  by_cases h : s.head? = some '-'
  · simp [h]; omega
  · simp [h]

/-- Every beginning of `s` of integer form is found by the digit scan. -/
theorem int_form_le_int_head {s q t : Str} (hq : int_form q = true) (hs : s = q ++ t) :
    (digit_part s).takeWhile Char.isDigit ≠ [] ∧ q.length ≤ (int_head s).length := by
  obtain ⟨hne, hd⟩ := (int_form_iff q).1 hq
  obtain ⟨hh, hp⟩ := int_form_append hq t
  have htw : (digit_part s).takeWhile Char.isDigit
      = digit_part q ++ t.takeWhile Char.isDigit := by
    rw [hs, hp, takeWhile_append_of_all _ _ _ hd]
  refine ⟨?_, ?_⟩
  · rw [htw]; simp [hne]
  · rw [length_int_head, htw, length_eq_sign_add_digit_part q hq, hs, hh]
    simp

theorem int_head_spec {s : Str} (h : (digit_part s).takeWhile Char.isDigit ≠ []) :
    int_form (int_head s) = true ∧ (∃ t, s = int_head s ++ t) ∧
      (int_head s).head? = s.head? ∧
      digit_part (int_head s) = (digit_part s).takeWhile Char.isDigit := by
  have hall := takeWhile_all Char.isDigit (digit_part s)
  by_cases hneg : s.head? = some '-'
  · have hhead : int_head s = '-' :: (digit_part s).takeWhile Char.isDigit := by
      simp [int_head, hneg]
    have hdp : digit_part (int_head s) = (digit_part s).takeWhile Char.isDigit := by
      rw [hhead, digit_part_cons_minus]
    refine ⟨(int_form_iff _).2 (by rw [hdp]; exact ⟨h, hall⟩), ?_, by rw [hhead, hneg]; rfl, hdp⟩
    cases s with
    | nil => simp at hneg
    | cons a b =>
      have ha : a = '-' := by simpa using hneg
      subst ha
      refine ⟨b.dropWhile Char.isDigit, ?_⟩
      rw [hhead, digit_part_cons_minus, List.cons_append, List.takeWhile_append_dropWhile]
  · have hs : digit_part s = s := digit_part_of_head_ne hneg
    have hhead : int_head s = s.takeWhile Char.isDigit := by
      simp [int_head, hneg, hs]
    have hne' : s.takeWhile Char.isDigit ≠ [] := by rwa [hs] at h
    have hall' : ∀ c ∈ s.takeWhile Char.isDigit, c.isDigit = true := by rwa [hs] at hall
    have hnm : (s.takeWhile Char.isDigit).head? ≠ some '-' := head_digit_ne_minus hne' hall'
    have hdp : digit_part (int_head s) = (digit_part s).takeWhile Char.isDigit := by
      rw [hhead, hs, digit_part_of_head_ne hnm]
    refine ⟨(int_form_iff _).2 (by rw [hdp]; exact ⟨h, hall⟩),
      ⟨s.dropWhile Char.isDigit, by rw [hhead, List.takeWhile_append_dropWhile]⟩, ?_, hdp⟩
    rw [hhead]
    cases s with
    | nil => simp at hne'
    | cons a b =>
      by_cases ha : a.isDigit = true
      · simp [List.takeWhile_cons, ha]
      · simp [List.takeWhile_cons, ha] at hne'

theorem longestIntForm_int_head {s : Str}
    (h : (digit_part s).takeWhile Char.isDigit ≠ []) : LongestIntForm s (int_head s) := by
  obtain ⟨h1, h2, _, _⟩ := int_head_spec h
  refine ⟨h1, h2, ?_⟩
  rintro q hq ⟨t, ht⟩
  exact (int_form_le_int_head hq ht).2

theorem longestIntForm_unique {s p : Str} (hp : LongestIntForm s p) :
    (digit_part s).takeWhile Char.isDigit ≠ [] ∧ p = int_head s := by
  obtain ⟨hf, ⟨t, ht⟩, hmax⟩ := hp
  obtain ⟨hne, hle⟩ := int_form_le_int_head hf ht
  obtain ⟨h1, ⟨t0, ht0⟩, _, _⟩ := int_head_spec hne
  have hge := hmax (int_head s) h1 ⟨t0, ht0⟩
  have hlen : p.length = (int_head s).length := Nat.le_antisymm hle hge
  refine ⟨hne, ?_⟩
  have : p ++ t = int_head s ++ t0 := by rw [← ht, ← ht0]
  exact (List.append_inj this hlen).1

theorem int_value_int_head {s : Str} (h : (digit_part s).takeWhile Char.isDigit ≠ []) :
    int_value (int_head s) =
      if s.head? = some '-'
      then -(digits_value ((digit_part s).takeWhile Char.isDigit) : Int)
      else (digits_value ((digit_part s).takeWhile Char.isDigit) : Int) := by
  obtain ⟨_, _, hh, hdp⟩ := int_head_spec h
  unfold int_value
  rw [hh, hdp]

theorem convert_string_int_eq_head (s : Str) :
    convert_string_int s =
      if (digit_part s).takeWhile Char.isDigit = [] then none
      else if INT_MIN ≤ int_value (int_head s) ∧ int_value (int_head s) ≤ INT_MAX
        then some (int_value (int_head s)) else none := by
  rw [convert_string_int_eq]
  by_cases h : (digit_part s).takeWhile Char.isDigit = []
  · simp [h]
  · simp only [h, if_false]
    rw [int_value_int_head h]

theorem int_head_of_int_form {s : Str} (h : int_form s = true) :
    (digit_part s).takeWhile Char.isDigit ≠ [] ∧ int_head s = s := by
  have hl : LongestIntForm s s := by
    refine ⟨h, ⟨[], by simp⟩, ?_⟩
    rintro q _ ⟨t, ht⟩
    rw [ht]; simp
  obtain ⟨h1, h2⟩ := longestIntForm_unique hl
  exact ⟨h1, h2.symm⟩

theorem natAbs_int_value (s : Str) : (int_value s).natAbs = digits_value (digit_part s) := by
  unfold int_value
  by_cases h : s.head? = some '-' <;> simp [h]

/-! ## Well-formed integers convert to their value (C12) -/

/-- C12: every string that is an optional leading `-` followed by one or more
decimal digits, leading zeros included, and whose value lies in the range of
`int`, converts successfully to exactly that value; the value is the base-10
reading of its digits. -/
theorem convert_string_int_of_int_form (s : Str) (hform : int_form s = true)
    (hlo : INT_MIN ≤ int_value s) (hhi : int_value s ≤ INT_MAX) :
    convert_string_int s = some (int_value s) ∧
      (int_value s).natAbs =
        Nat.ofDigits 10 (((digit_part s).map (fun c => c.toNat - '0'.toNat)).reverse) ∧
      (0 < int_value s → s.head? ≠ some '-') ∧ (int_value s < 0 → s.head? = some '-') := by
  obtain ⟨hne, hhead⟩ := int_head_of_int_form hform
  refine ⟨?_, ?_, ?_, ?_⟩
  · rw [convert_string_int_eq_head, if_neg hne, hhead, if_pos ⟨hlo, hhi⟩]
  · rw [natAbs_int_value, digits_value_eq_ofDigits]
  · intro hpos hm
    unfold int_value at hpos
    rw [if_pos hm] at hpos
    omega
  · intro hlt
    by_contra hm
    unfold int_value at hlt
    rw [if_neg hm] at hlt
    omega

/-- C12 at `-0042`, which converts to -42, and at the two ends of the range. -/
theorem convert_string_int_of_int_form_witness :
    (int_form "-0042".toList = true ∧ INT_MIN ≤ int_value "-0042".toList ∧
      int_value "-0042".toList ≤ INT_MAX) ∧
      (convert_string_int "-0042".toList = some (int_value "-0042".toList) ∧
        (int_value "-0042".toList).natAbs =
          Nat.ofDigits 10
            (((digit_part "-0042".toList).map (fun c => c.toNat - '0'.toNat)).reverse) ∧
        (0 < int_value "-0042".toList → "-0042".toList.head? ≠ some '-') ∧
        (int_value "-0042".toList < 0 → "-0042".toList.head? = some '-')) ∧
      int_value "-0042".toList = -42 ∧
      convert_string_int "-2147483648".toList = some (-2147483648) ∧
      convert_string_int "2147483647".toList = some 2147483647 :=
  ⟨⟨by decide, by decide, by decide⟩,
    convert_string_int_of_int_form "-0042".toList (by decide) (by decide) (by decide),
    by decide, by decide, by decide⟩

/-! ## The integer converter, exactly (C19) -/

/-- C19: `convert_string<int>` succeeds with `v` exactly when `s` has a
longest beginning `p` of the form optional `-` then one or more digits, and
the value `v` of `p` lies in the range of `int`; whatever follows `p` is
ignored. It fails exactly when there is no such beginning or its value is out
of range: so do a leading `+`, leading whitespace, a lone `-`, the empty
string and digit runs out of range. -/
theorem convert_string_int_exact (s : Str) :
    (∀ v, convert_string_int s = some v ↔
        ∃ p, LongestIntForm s p ∧ int_value p = v ∧ INT_MIN ≤ v ∧ v ≤ INT_MAX) ∧
      (convert_string_int s = none ↔
        (∀ p, ¬ LongestIntForm s p) ∨
          ∃ p, LongestIntForm s p ∧ ¬ (INT_MIN ≤ int_value p ∧ int_value p ≤ INT_MAX)) ∧
      (convert_string_int "12abc".toList = some 12 ∧
        convert_string_int "-7.5".toList = some (-7) ∧
        convert_string_int "+3".toList = none ∧
        convert_string_int " 3".toList = none ∧
        convert_string_int "-".toList = none ∧
        convert_string_int [] = none ∧
        convert_string_int "2147483648".toList = none ∧
        convert_string_int "-2147483649".toList = none ∧
        convert_string_int "99999999999x".toList = none) := by
  refine ⟨?_, ?_, by decide⟩
  · intro v
    rw [convert_string_int_eq_head]
    constructor
    · intro h
      by_cases hne : (digit_part s).takeWhile Char.isDigit = []
      · rw [if_pos hne] at h; exact Option.noConfusion h
      · rw [if_neg hne] at h
        by_cases hr : INT_MIN ≤ int_value (int_head s) ∧ int_value (int_head s) ≤ INT_MAX
        · rw [if_pos hr] at h
          have hv : int_value (int_head s) = v := Option.some.inj h
          exact ⟨int_head s, longestIntForm_int_head hne, hv, hv ▸ hr.1, hv ▸ hr.2⟩
        · rw [if_neg hr] at h; exact Option.noConfusion h
    · rintro ⟨p, hp, hv, hlo, hhi⟩
      obtain ⟨hne, rfl⟩ := longestIntForm_unique hp
      rw [if_neg hne, hv, if_pos ⟨hlo, hhi⟩]
  · rw [convert_string_int_eq_head]
    constructor
    · intro h
      by_cases hne : (digit_part s).takeWhile Char.isDigit = []
      · left
        intro p hp
        exact (longestIntForm_unique hp).1 hne
      · right
        rw [if_neg hne] at h
        refine ⟨int_head s, longestIntForm_int_head hne, ?_⟩
        intro hr
        rw [if_pos hr] at h
        exact Option.noConfusion h
    · rintro (hno | ⟨p, hp, hr⟩)
      · by_cases hne : (digit_part s).takeWhile Char.isDigit = []
        · rw [if_pos hne]
        · exact absurd (longestIntForm_int_head hne) (hno _)
      · obtain ⟨hne, rfl⟩ := longestIntForm_unique hp
        rw [if_neg hne, if_neg hr]

/-! ## Tokens that supply nothing -/

theorem parse_cmd_snd (prog command : Str) (toks : List Str) :
    (parse_cmd (prog :: command :: toks)).2 =
      (option_values toks).foldl (fun (m : MapT) p => m.emplace p.1 p.2) [] :=
  parse_loop_eq_foldl toks []

/-- An option token reads its successor only to find a value there: two
successors that are both unusable as a value make no difference. -/
theorem option_value_congr_next (t : Str) (next next' : Option Str)
    (h : ∀ v, next = some v → has_marker v = true)
    (h' : ∀ v, next' = some v → has_marker v = true) :
    option_value t next = option_value t next' := by
  have key : ∀ nx : Option Str, (∀ v, nx = some v → has_marker v = true) →
      option_value t nx =
        if has_marker t = false then none
        else match strchr (t.drop 2) '=' with
          | some eq => some ((t.drop 2).take eq, (t.drop 2).drop (eq + 1))
          | none => none := by
    intro nx hnx
    unfold option_value
    by_cases hm : has_marker t = false
    · simp [hm]
    · simp only [hm, if_false]
      cases strchr (t.drop 2) '=' with
      | some eq => rfl
      | none =>
        cases nx with
        | none => rfl
        | some v => simp [hnx v rfl]
  rw [key next h, key next' h']

/-- A token that needs no successor supplies the same whatever follows. -/
theorem option_value_of_closed (t : Str) (next next' : Option Str)
    (h : has_marker t = false ∨ '=' ∈ t.drop 2) :
    option_value t next = option_value t next' := by
  unfold option_value
  rcases h with h | h
  · simp [h]
  · by_cases hm : has_marker t = false
    · simp [hm]
    · simp only [hm, if_false]
      cases hs : strchr (t.drop 2) '=' with
      | some eq => rfl
      | none => exact absurd h (strchr_eq_none.1 hs)

theorem head?_append_of_ne_nil {α : Type} {l : List α} (h : l ≠ []) (r : List α) :
    (l ++ r).head? = l.head? := by
  cases l with
  | nil => exact absurd rfl h
  | cons a l => rfl

/-- What a list of tokens supplies, split at any point: the two parts
interact only through the successor of the last token of the first part. -/
theorem option_values_append_congr (pre post post' : List Str)
    (h : ∀ p, pre.getLast? = some p →
      option_value p post.head? = option_value p post'.head?) :
    ∃ l, option_values (pre ++ post) = l ++ option_values post ∧
      option_values (pre ++ post') = l ++ option_values post' := by
  induction pre with
  | nil => exact ⟨[], rfl, rfl⟩
  | cons t pre ih =>
    by_cases hpre : pre = []
    · subst hpre
      refine ⟨(option_value t post.head?).toList, rfl, ?_⟩
      rw [h t rfl]
      rfl
    · have hlast : (t :: pre).getLast? = pre.getLast? := by
        cases pre with
        | nil => exact absurd rfl hpre
        | cons a l => simp [List.getLast?_cons_cons]
      obtain ⟨l, h1, h2⟩ := ih (fun p hp => h p (by rw [hlast]; exact hp))
      refine ⟨(option_value t pre.head?).toList ++ l, ?_, ?_⟩
      · rw [List.cons_append, option_values_cons, head?_append_of_ne_nil hpre, h1,
          List.append_assoc]
      · rw [List.cons_append, option_values_cons, head?_append_of_ne_nil hpre, h2,
          List.append_assoc]

theorem option_values_remove (pre : List Str) (t : Str) (rest : List Str)
    (ht : option_value t rest.head? = none)
    (h : ∀ p, pre.getLast? = some p →
      option_value p (some t) = option_value p rest.head?) :
    option_values (pre ++ t :: rest) = option_values (pre ++ rest) := by
  obtain ⟨l, h1, h2⟩ := option_values_append_congr pre (t :: rest) rest h
  rw [h1, h2, option_values_cons, ht]
  rfl

theorem option_value_marker_only {n : Str} (hn : '=' ∉ n) (next : Option Str)
    (hnext : ∀ v, next = some v → has_marker v = true) :
    option_value (marker ++ n) next = none := by
  unfold option_value
  simp only [has_marker_append, drop_marker, strchr_eq_none.2 hn]
  cases next with
  | none => simp
  | some v => simp [hnext v rfl]

/-! ## An option without a value (C13) -/

/-- C13: an option token `--n` (no `=` in `n`) that is last or is followed by
a token beginning with the marker changes nothing: the argument vector with
it and the argument vector without it give the same result, whatever tokens
come before, and the token after it is scanned as usual. -/
theorem parse_cmd_option_without_value (prog command : Str) (pre rest : List Str) (n : Str)
    (hn : '=' ∉ n) (hrest : ∀ t, rest.head? = some t → has_marker t = true) :
    parse_cmd (prog :: command :: (pre ++ (marker ++ n) :: rest)) =
        parse_cmd (prog :: command :: (pre ++ rest)) ∧
      ∀ m : MapT, parse_loop ((marker ++ n) :: rest) m = parse_loop rest m := by
  have hnone : option_value (marker ++ n) rest.head? = none :=
    option_value_marker_only hn _ hrest
  refine ⟨?_, ?_⟩
  · have hv : option_values (pre ++ (marker ++ n) :: rest) = option_values (pre ++ rest) := by
      refine option_values_remove pre _ rest hnone ?_
      intro p _
      refine option_value_congr_next p _ _ ?_ hrest
      intro v hv
      cases hv
      exact has_marker_append n
    show (command, parse_loop (pre ++ (marker ++ n) :: rest) [])
      = (command, parse_loop (pre ++ rest) [])
    rw [parse_loop_eq_foldl, parse_loop_eq_foldl, hv]
  · intro m
    rw [parse_loop_eq_foldl, parse_loop_eq_foldl, option_values_cons, hnone]
    rfl

/-- C13 at `prog cmd --a --x --b=2 v` against `prog cmd --a --b=2 v`. -/
theorem parse_cmd_option_without_value_witness :
    ('=' ∉ "x".toList ∧
      ∀ t, ["--b=2".toList, "v".toList].head? = some t → has_marker t = true) ∧
      (parse_cmd ("prog".toList :: "cmd".toList ::
          (["--a".toList] ++ (marker ++ "x".toList) :: ["--b=2".toList, "v".toList])) =
        parse_cmd ("prog".toList :: "cmd".toList ::
          (["--a".toList] ++ ["--b=2".toList, "v".toList])) ∧
        ∀ m : MapT, parse_loop ((marker ++ "x".toList) :: ["--b=2".toList, "v".toList]) m =
          parse_loop ["--b=2".toList, "v".toList] m) ∧
      parse_cmd ("prog".toList :: "cmd".toList ::
          (["--a".toList] ++ (marker ++ "x".toList) :: ["--b=2".toList, "v".toList])) =
        ("cmd".toList, [("b".toList, "2".toList)]) :=
  ⟨⟨by decide, by decide⟩,
    parse_cmd_option_without_value "prog".toList "cmd".toList ["--a".toList]
      ["--b=2".toList, "v".toList] "x".toList (by decide) (by decide),
    by decide⟩

/-! ## Tokens without the marker (C14) -/

/-- C14: a token that does not begin with the marker, placed right after the
command, changes nothing; more generally, wherever it stands, it changes
nothing unless the token before it is an option `--name` without `=`, which
takes it as its value. -/
theorem parse_cmd_skips_plain_token (prog command t : Str) (rest : List Str)
    (ht : has_marker t = false) :
    parse_cmd (prog :: command :: t :: rest) = parse_cmd (prog :: command :: rest) ∧
      (∀ m : MapT, parse_loop (t :: rest) m = parse_loop rest m) ∧
      ∀ pre : List Str,
        (∀ p, pre.getLast? = some p → has_marker p = false ∨ '=' ∈ p.drop 2) →
        parse_cmd (prog :: command :: (pre ++ t :: rest)) =
          parse_cmd (prog :: command :: (pre ++ rest)) := by
  have hloop : ∀ m : MapT, parse_loop (t :: rest) m = parse_loop rest m := by
    intro m
    rw [parse_loop, if_pos ht]
  refine ⟨?_, hloop, ?_⟩
  · show (command, parse_loop (t :: rest) []) = (command, parse_loop rest [])
    rw [hloop]
  · intro pre hpre
    have hv : option_values (pre ++ t :: rest) = option_values (pre ++ rest) :=
      option_values_remove pre t rest (option_value_of_not_marker ht _)
        (fun p hp => option_value_of_closed p _ _ (hpre p hp))
    show (command, parse_loop (pre ++ t :: rest) []) = (command, parse_loop (pre ++ rest) [])
    rw [parse_loop_eq_foldl, parse_loop_eq_foldl, hv]

/-- C14 at the plain token `pos`: first after the command, then after
`--a=1 --b 2`, where `2` has already been taken as the value of `--b`. -/
theorem parse_cmd_skips_plain_token_witness :
    has_marker "pos".toList = false ∧
      (parse_cmd ("prog".toList :: "cmd".toList :: "pos".toList :: ["--a".toList, "1".toList]) =
          parse_cmd ("prog".toList :: "cmd".toList :: ["--a".toList, "1".toList]) ∧
        (∀ m : MapT, parse_loop ("pos".toList :: ["--a".toList, "1".toList]) m =
          parse_loop ["--a".toList, "1".toList] m) ∧
        ∀ pre : List Str,
          (∀ p, pre.getLast? = some p → has_marker p = false ∨ '=' ∈ p.drop 2) →
          parse_cmd ("prog".toList :: "cmd".toList ::
              (pre ++ "pos".toList :: ["--a".toList, "1".toList])) =
            parse_cmd ("prog".toList :: "cmd".toList :: (pre ++ ["--a".toList, "1".toList]))) ∧
      parse_cmd ["prog".toList, "cmd".toList, "--a=1".toList, "--b".toList, "2".toList,
          "pos".toList, "--c=3".toList] =
        parse_cmd ["prog".toList, "cmd".toList, "--a=1".toList, "--b".toList, "2".toList,
          "--c=3".toList] :=
  ⟨by decide,
    parse_cmd_skips_plain_token "prog".toList "cmd".toList "pos".toList
      ["--a".toList, "1".toList] (by decide),
    (parse_cmd_skips_plain_token "prog".toList "cmd".toList "pos".toList
      ["--c=3".toList] (by decide)).2.2 ["--a=1".toList, "--b".toList, "2".toList]
      (by decide)⟩

/-! ## The command (C15) -/

/-- C15: without a command (`argc < 2`) `parse_cmd` returns the empty command
and the empty map; otherwise the command is the element after the program
name, verbatim, whatever it looks like, and it never produces a map entry:
the map is the same for every command, and empty when nothing follows. -/
theorem parse_cmd_command (prog command : Str) (rest : List Str) :
    (∀ argv : List Str, argv.length < 2 → parse_cmd argv = ([], [])) ∧
      (parse_cmd (prog :: command :: rest)).1 = command ∧
      (∀ command' : Str, (parse_cmd (prog :: command :: rest)).2 =
        (parse_cmd (prog :: command' :: rest)).2) ∧
      parse_cmd [prog, command] = (command, []) ∧
      parse_cmd ["prog".toList, "--a=1".toList] = ("--a=1".toList, []) ∧
      parse_cmd ["prog".toList, "--a".toList, "1".toList] = ("--a".toList, []) := by
  refine ⟨?_, rfl, fun _ => rfl, rfl, by decide, by decide⟩
  intro argv hlen
  match argv, hlen with
  | [], _ => rfl
  | [_], _ => rfl
  | _ :: _ :: _, hlen => exact absurd hlen (by simp)

/-! ## The single-token form (C16) -/

/-- C16: for a name `n` without `=` and any value `v` (empty, with further
`=`, or beginning with the marker), the token `--n=v` after the command gives
exactly the one-entry map `n -> v`: the split is at the first `=`, and the
token after it is not consumed but scanned next. -/
theorem parse_cmd_eq_token (prog command n v : Str) (hn : '=' ∉ n) :
    parse_cmd [prog, command, marker ++ n ++ '=' :: v] = (command, [(n, v)]) ∧
      ∀ (rest : List Str) (m : MapT),
        parse_loop ((marker ++ n ++ '=' :: v) :: rest) m = parse_loop rest (m.emplace n v) := by
  have hloop : ∀ (rest : List Str) (m : MapT),
      parse_loop ((marker ++ n ++ '=' :: v) :: rest) m = parse_loop rest (m.emplace n v) :=
    fun rest m => parse_loop_eq_form n v rest m hn
  refine ⟨?_, hloop⟩
  show (command, parse_loop [marker ++ n ++ '=' :: v] []) = (command, [(n, v)])
  rw [hloop, parse_loop]
  rfl

/-- C16 at the name `k` with the values `--a=b=` and the empty string. -/
theorem parse_cmd_eq_token_witness :
    '=' ∉ "k".toList ∧
      (parse_cmd ["prog".toList, "cmd".toList, marker ++ "k".toList ++ '=' :: "--a=b=".toList]
          = ("cmd".toList, [("k".toList, "--a=b=".toList)]) ∧
        ∀ (rest : List Str) (m : MapT),
          parse_loop ((marker ++ "k".toList ++ '=' :: "--a=b=".toList) :: rest) m =
            parse_loop rest (m.emplace "k".toList "--a=b=".toList)) ∧
      parse_cmd ["prog".toList, "cmd".toList, "--k=".toList] = ("cmd".toList, [("k".toList, [])]) :=
  ⟨by decide, parse_cmd_eq_token "prog".toList "cmd".toList "k".toList "--a=b=".toList (by decide),
    by decide⟩

/-! ## Names that are not declared (C17) -/

theorem run_congr_params {σ : Type} (cmds : List (CommandSpec σ)) (command : Str)
    (m m' : MapT) (w : σ)
    (h : ∀ c ∈ cmds, ∀ p ∈ c.parameters, m.find p.name = m'.find p.name) :
    run cmds command m w = run cmds command m' w := by
  induction cmds with
  | nil => rfl
  | cons f fs ih =>
    have ih' := ih (fun c hc => h c (List.mem_cons_of_mem _ hc))
    have hf := get_parameters_values_congr f.parameters m m' (h f (List.mem_cons_self _ _))
    rw [run, run, hf, ih']

theorem MapT.find_filter (l : MapT) (keep : Str → Bool) (n : Str) (hn : keep n = true) :
    MapT.find (l.filter (fun p => keep p.1)) n = MapT.find l n := by
  induction l with
  | nil => rfl
  | cons e l ih =>
    obtain ⟨k, x⟩ := e
    by_cases hk : keep k = true
    · simp only [List.filter_cons, hk, if_true, MapT.find, ih]
    · have hne : ¬ k = n := fun e => hk (e ▸ hn)
      simp only [List.filter_cons, hk, if_false, MapT.find, hne, ih, Bool.false_eq_true]

theorem find_parse_cmd_render (prog command : Str) (args : List Supplied) (n : Str)
    (hname : ∀ a ∈ args, '=' ∉ a.name)
    (hvalue : ∀ a ∈ args, a.eq_form = false → has_marker a.value = false) :
    (parse_cmd (prog :: command :: render args)).2.find n =
      MapT.find (args.map (fun a => (a.name, a.value))) n := by
  show MapT.find (parse_loop (render args) []) n = _
  rw [parse_loop_render args [] hname hvalue, foldl_emplace_map, MapT.find_foldl_emplace]
  simp [MapT.find]

/-- C17: two maps that agree on every declared parameter name bind alike,
whatever other entries they hold, and make `run` behave alike; on the command
line, leaving out every supplied parameter whose name no registered function
declares does not change what `run` does. -/
theorem binding_ignores_undeclared {σ : Type} (cmds : List (CommandSpec σ)) (command : Str)
    (ps : List ParameterSpec) (m m' : MapT) (w : σ) :
    ((∀ p ∈ ps, m.find p.name = m'.find p.name) →
        get_parameters_values ps m = get_parameters_values ps m') ∧
      ((∀ c ∈ cmds, ∀ p ∈ c.parameters, m.find p.name = m'.find p.name) →
        run cmds command m w = run cmds command m' w) ∧
      ∀ (prog : Str) (args : List Supplied) (unknown : Str → Bool),
        (∀ c ∈ cmds, ∀ p ∈ c.parameters, unknown p.name = false) →
        (∀ a ∈ args, '=' ∉ a.name) →
        (∀ a ∈ args, a.eq_form = false → has_marker a.value = false) →
        run_main cmds (prog :: command :: render args) w =
          run_main cmds
            (prog :: command :: render (args.filter (fun a => !unknown a.name))) w := by
  refine ⟨get_parameters_values_congr ps m m', run_congr_params cmds command m m' w, ?_⟩
  intro prog args unknown hunk hname hvalue
  have hname' : ∀ a ∈ args.filter (fun a => !unknown a.name), '=' ∉ a.name :=
    fun a ha => hname a (List.mem_of_mem_filter ha)
  have hvalue' : ∀ a ∈ args.filter (fun a => !unknown a.name),
      a.eq_form = false → has_marker a.value = false :=
    fun a ha => hvalue a (List.mem_of_mem_filter ha)
  show run cmds command (parse_cmd (prog :: command :: render args)).2 w =
    run cmds command
      (parse_cmd (prog :: command :: render (args.filter (fun a => !unknown a.name)))).2 w
  refine run_congr_params cmds command _ _ w ?_
  intro c hc p hp
  rw [find_parse_cmd_render prog command args p.name hname hvalue,
    find_parse_cmd_render prog command _ p.name hname' hvalue']
  have hkeep : (fun n => !unknown n) p.name = true := by simp [hunk c hc p hp]
  rw [← MapT.find_filter (args.map (fun a => (a.name, a.value))) (fun n => !unknown n)
    p.name hkeep]
  congr 1
  rw [List.filter_map]
  rfl

/-- C17 at `sum`: the map of `--z 9 --y=4 --x 3 --verbose=1` and the map of
`--y=4 --x 3` bind alike, and `main` writes `3+4=7` for both command lines. -/
theorem binding_ignores_undeclared_witness :
    ((∀ p ∈ sum_spec.parameters,
        (parse_cmd ("prog".toList :: "sum".toList :: render sum_input_with_unknown)).2.find p.name
          = MapT.find [("y".toList, "4".toList), ("x".toList, "3".toList)] p.name) ∧
      (∀ c ∈ [sum_spec, sqr_spec, cat_spec], ∀ p ∈ c.parameters, unknown_name p.name = false) ∧
      (∀ a ∈ sum_input_with_unknown, '=' ∉ a.name) ∧
      (∀ a ∈ sum_input_with_unknown, a.eq_form = false → has_marker a.value = false)) ∧
      get_parameters_values sum_spec.parameters
          (parse_cmd ("prog".toList :: "sum".toList :: render sum_input_with_unknown)).2 =
        get_parameters_values sum_spec.parameters
          [("y".toList, "4".toList), ("x".toList, "3".toList)] ∧
      run_main [sum_spec, sqr_spec, cat_spec]
          ("prog".toList :: "sum".toList :: render sum_input_with_unknown) [] =
        run_main [sum_spec, sqr_spec, cat_spec]
          ("prog".toList :: "sum".toList ::
            render (sum_input_with_unknown.filter (fun a => !unknown_name a.name))) [] ∧
      run_main [sum_spec, sqr_spec, cat_spec]
          ("prog".toList :: "sum".toList :: render sum_input_with_unknown) [] =
        (0, "3+4=7".toList) :=
  ⟨⟨by decide, by decide, by decide, by decide⟩,
    (binding_ignores_undeclared [sum_spec, sqr_spec, cat_spec] "sum".toList sum_spec.parameters
      (parse_cmd ("prog".toList :: "sum".toList :: render sum_input_with_unknown)).2
      [("y".toList, "4".toList), ("x".toList, "3".toList)] ([] : Str)).1 (by decide),
    (binding_ignores_undeclared [sum_spec, sqr_spec, cat_spec] "sum".toList [] [] []
      ([] : Str)).2.2 "prog".toList sum_input_with_unknown unknown_name
      (by decide) (by decide) (by decide),
    by decide⟩

/-! ## Entries are never overwritten (C18) -/

theorem option_value_none_next {t : Str} {e : Str × Str}
    (h : option_value t none = some e) (next : Option Str) : option_value t next = some e := by
  unfold option_value at h ⊢
  by_cases hm : has_marker t = false
  · simp [hm] at h
  · simp only [hm, if_false] at h ⊢
    cases hs : strchr (t.drop 2) '=' with
    | some eq => rw [hs] at h; exact h
    | none => rw [hs] at h; simp at h

/-- Tokens added at the end only add to what the earlier tokens supply. -/
theorem option_values_append_extends (pre post : List Str) :
    ∃ l, option_values (pre ++ post) = option_values pre ++ l := by
  induction pre with
  | nil => exact ⟨option_values post, rfl⟩
  | cons t pre ih =>
    obtain ⟨l, hl⟩ := ih
    by_cases hpre : pre = []
    · subst hpre
      cases hv : option_value t none with
      | none =>
        refine ⟨option_values ([t] ++ post), ?_⟩
        simp [option_values, hv]
      | some e =>
        refine ⟨option_values post, ?_⟩
        rw [List.singleton_append, option_values_cons, option_value_none_next hv,
          option_values_cons, List.head?_nil, hv]
        rfl
    · refine ⟨l, ?_⟩
      rw [List.cons_append, option_values_cons, head?_append_of_ne_nil hpre, hl,
        option_values_cons, List.append_assoc]

theorem suppliesAt_append_length (pre : List Str) (t : Str) (post : List Str) (n v : Str) :
    SuppliesAt (pre ++ t :: post) pre.length n v ↔ Supplies t post.head? n v := by
  induction pre with
  | nil =>
    rw [List.nil_append, List.length_nil, suppliesAt_zero, option_value_eq_some_iff]
  | cons a pre ih =>
    rw [List.cons_append, List.length_cons, suppliesAt_succ, ih]

/-- C18: the map of `parse_cmd` holds, for each name, the value of the first
position that supplies one. Once the map built so far has an entry for a
name, scanning further tokens never changes it; hence adding tokens at the
end of an argument vector keeps every binding it already produces, and a
token that supplies `n` with `v` decides the binding of `n` as soon as no
token before it supplies `n`, whatever comes later. -/
theorem parse_cmd_keeps_first_entry (prog command : Str) (toks₁ toks₂ : List Str) (n v : Str) :
    (∀ m : MapT, m.find n = some v → (parse_loop toks₂ m).find n = some v) ∧
      (∀ (m : MapT) (k x : Str), m.find n = some v → (m.emplace k x).find n = some v) ∧
      ((parse_cmd (prog :: command :: toks₁)).2.find n = some v →
        (parse_cmd (prog :: command :: (toks₁ ++ toks₂))).2.find n = some v) ∧
      ∀ t : Str, Supplies t toks₂.head? n v →
        (∀ i, i < toks₁.length → ∀ w, ¬ SuppliesAt (toks₁ ++ t :: toks₂) i n w) →
        (parse_cmd (prog :: command :: (toks₁ ++ t :: toks₂))).2.find n = some v := by
  refine ⟨?_, ?_, ?_, ?_⟩
  · intro m hm
    rw [find_parse_loop, hm]
    rfl
  · intro m k x hm
    rw [MapT.find_emplace, hm]
    rfl
  · intro h
    have h1 : MapT.find (option_values toks₁) n = some v := by
      have : MapT.find (parse_loop toks₁ []) n = some v := h
      rw [find_parse_loop] at this
      simpa [MapT.find] using this
    obtain ⟨l, hl⟩ := option_values_append_extends toks₁ toks₂
    show MapT.find (parse_loop (toks₁ ++ toks₂) []) n = some v
    rw [find_parse_loop, hl, MapT.find_append, h1]
    simp [MapT.find]
  · intro t ht hfirst
    show MapT.find (parse_loop (toks₁ ++ t :: toks₂) []) n = some v
    rw [find_parse_loop]
    have : MapT.find (option_values (toks₁ ++ t :: toks₂)) n = some v :=
      (find_option_values_iff _ n v).2
        ⟨toks₁.length, (suppliesAt_append_length toks₁ t toks₂ n v).2 ht, hfirst⟩
    rw [this]
    simp [MapT.find]

/-- C18 at `prog cmd --a 1` extended by `--a=2 --a 3`: `a` stays bound to `1`. -/
theorem parse_cmd_keeps_first_entry_witness :
    (parse_cmd ("prog".toList :: "cmd".toList :: ["--a".toList, "1".toList])).2.find "a".toList
        = some "1".toList ∧
      (parse_cmd ("prog".toList :: "cmd".toList ::
          (["--a".toList, "1".toList] ++ ["--a=2".toList, "--a".toList, "3".toList]))).2.find
        "a".toList = some "1".toList ∧
      (parse_cmd ("prog".toList :: "cmd".toList ::
          (["--a".toList, "1".toList] ++ ["--a=2".toList, "--a".toList, "3".toList]))).2
        = [("a".toList, "1".toList)] :=
  ⟨by decide,
    (parse_cmd_keeps_first_entry "prog".toList "cmd".toList ["--a".toList, "1".toList]
      ["--a=2".toList, "--a".toList, "3".toList] "a".toList "1".toList).2.2.1 (by decide),
    by decide⟩

/-! ## Dispatch, exactly (C20) -/

/-- C20: `run` returns what the handler of the first registered function, in
registration order, whose name equals the command string and whose binding
succeeds returns on the bound values, and returns 1 with the state untouched
when there is no such function; a function of that name whose binding fails
does not end the search, so with `first::f(int x)` and `second::f(int y)`
registered, the command `f` with only `y` supplied runs the second. -/
theorem run_exact {σ : Type} (cmds : List (CommandSpec σ)) (command : Str) (params : MapT)
    (w : σ) :
    (run cmds command params w =
        match cmds.find? (fun c => decide (c.name = command) &&
          (get_parameters_values c.parameters params).isSome) with
        | some c =>
          match get_parameters_values c.parameters params with
          | some values => c.invoke values w
          | none => (1, w)
        | none => (1, w)) ∧
      (∀ c, cmds.find? (fun c => decide (c.name = command) &&
          (get_parameters_values c.parameters params).isSome) = some c →
        c.name = command ∧ ∃ values, get_parameters_values c.parameters params = some values ∧
          run cmds command params w = c.invoke values w) ∧
      run [first_f, second_f] "f".toList [("y".toList, "1".toList)] [] = (5, "second".toList) ∧
      run [first_f, second_f] "f".toList [("x".toList, "1".toList), ("y".toList, "1".toList)] []
        = (7, "first".toList) ∧
      run [first_f, second_f] "f".toList [("z".toList, "1".toList)] [] = (1, []) := by
  have heq : run cmds command params w =
      match cmds.find? (fun c => decide (c.name = command) &&
        (get_parameters_values c.parameters params).isSome) with
      | some c =>
        match get_parameters_values c.parameters params with
        | some values => c.invoke values w
        | none => (1, w)
      | none => (1, w) := by
    induction cmds with
    | nil => rfl
    | cons f fs ih =>
      by_cases hn : f.name = command
      · cases hb : get_parameters_values f.parameters params with
        | some values =>
          rw [run, if_pos hn, hb]
          simp [List.find?, hn, hb]
        | none =>
          rw [run, if_pos hn, hb, ih]
          simp [List.find?, hn, hb]
      · rw [run, if_neg hn, ih]
        simp [List.find?, hn]
  refine ⟨heq, ?_, by decide, by decide, by decide⟩
  intro c hc
  have hp := List.find?_some hc
  simp only [Bool.and_eq_true, decide_eq_true_eq] at hp
  obtain ⟨hname, hsome⟩ := hp
  obtain ⟨values, hv⟩ := Option.isSome_iff_exists.1 hsome
  refine ⟨hname, values, hv, ?_⟩
  rw [heq, hc]
  simp only [hv]

end argparse
